import Mathlib

/-!
# Verification of the `import-html-entry` fetch–cache–schedule–execute pipeline

Shallow embedding of `src/index.js`. JavaScript promises are modelled by
explicit state passing: a fetch result is `Except Err String` (a settled
promise, rejected or resolved), the module-level caches and every invocation
of the supplied fetch capability are recorded in `CacheSt`, and the script
scheduler is a state machine over the script list producing a trace of
events (`SchedSt`) plus an optional propagated exception. JavaScript values
stored on the sandbox are modelled by `JsVal` with the standard truthiness.
-/

namespace ImportHtmlEntry

/-- JavaScript exceptions / rejection reasons, modelled by their message. -/
abbrev Err := String

instance : DecidableEq (Except Err String) := fun a b =>
  match a, b with
  | .ok x, .ok y =>
    if h : x = y then .isTrue (h ▸ rfl) else .isFalse (fun hc => h (Except.ok.inj hc))
  | .ok _, .error _ => .isFalse (fun hc => Except.noConfusion hc)
  | .error _, .ok _ => .isFalse (fun hc => Except.noConfusion hc)
  | .error x, .error y =>
    if h : x = y then .isTrue (h ▸ rfl) else .isFalse (fun hc => h (Except.error.inj hc))

/-- JavaScript values as far as the sandbox export capture observes them. -/
inductive JsVal where
  | undefinedV
  | nul
  | boolean (b : Bool)
  | number (n : Int)
  | strV (s : String)
  /-- the fresh empty object literal produced by the `|| \x7b\x7d` default -/
  | emptyObj
  | objRef (id : Nat)
deriving DecidableEq, Repr

/-- JavaScript truthiness for the modelled values. -/
def truthy : JsVal → Bool
  | .undefinedV => false
  | .nul => false
  | .boolean b => b
  | .number n => n != 0
  | .strV s => !(s == "")
  | .emptyObj => true
  | .objRef _ => true

/-- `isInlineCode` from `src/index.js`: `code => code.startsWith('<')`. -/
def isInlineCode (code : String) : Bool := code.data.head? == some '<'

/-- Modelled from the spec: `getInlineCode` lives in the utility module, which is
not under the provided sources. Per the spec, inline descriptors "resolve by
extracting literal content directly": the text between the end of the opening
tag and the start of the closing tag. -/
def getInlineCode (markup : String) : String :=
  let afterOpen := (markup.data.dropWhile (fun c => c ≠ '>')).drop 1
  String.mk ((afterOpen.reverse.dropWhile (fun c => c ≠ '<')).drop 1).reverse

/-- JavaScript `String.prototype.replace` with a plain-string pattern replaces
only the first occurrence. -/
def replaceFirst (s pat rep : String) : String :=
  match s.splitOn pat with
  | [] => s
  | [whole] => whole
  | x :: y :: rest => x ++ rep ++ String.intercalate pat (y :: rest)

/-- A script descriptor as `execScripts` receives it: either a plain string
(inline markup or a remote location) or an object `\x7bsrc, async, crossOrigin\x7d`
produced by the template parser for `async`-attributed scripts. -/
inductive Script where
  | str (s : String)
  | obj (src : String) (async : Bool) (crossOrigin : Bool)
deriving DecidableEq, Repr

/-- One element of the `scriptsText` array that `getExternalScripts` resolves:
either script text available synchronously, or the async handle
`\x7bsrc, async: true, content: promise\x7d` whose `content` is still pending (the
fetch itself is deferred to the idle scheduler, see `runAsyncScript`). -/
inductive ScriptText where
  | text (s : String)
  | asyncHandle (src : String)
deriving DecidableEq, Repr

/-- The module-level mutable state of `src/index.js`: the `styleCache` and
`scriptCache` objects (mapping a location to its memoized settled promise),
plus instrumentation recording every invocation of the supplied fetch
capability (split by call site) and of the per-script `errorCallback`. -/
structure CacheSt where
  styleCache : List (String × Except Err String)
  scriptCache : List (String × Except Err String)
  styleFetchLog : List String
  scriptFetchLog : List String
  errorLog : List String
deriving DecidableEq, Repr

def emptyCache : CacheSt := ⟨[], [], [], [], []⟩

/-- The remote branch of `getExternalStyleSheets`:
`styleCache[styleLink] || (styleCache[styleLink] = fetch(styleLink).then(response => response.text()))`.
A cache hit returns the stored settled promise unchanged; a miss invokes the
fetch capability once and stores the result, resolved or rejected. -/
def fetchStyle (fetchF : String → Except Err String) (styleLink : String) (st : CacheSt) :
    Except Err String × CacheSt :=
  match st.styleCache.lookup styleLink with
  | some cached => (cached, st)
  | none =>
    let p := fetchF styleLink
    (p, { st with styleCache := (styleLink, p) :: st.styleCache,
                  styleFetchLog := st.styleFetchLog ++ [styleLink] })

/-- `fetchScript` from `src/index.js` (closed over `scriptCache`):
a cache hit returns the stored settled promise unchanged (the `errorCallback`
chained on the original promise is not re-invoked); a miss invokes the fetch
capability once, and on rejection runs `errorCallback()` and re-throws, caching
the rejected promise. The `fetchOpts` (`credentials` for crossOrigin scripts)
do not affect any verified property and are not modelled. -/
def fetchScript (fetchF : String → Except Err String) (scriptUrl : String) (st : CacheSt) :
    Except Err String × CacheSt :=
  match st.scriptCache.lookup scriptUrl with
  | some cached => (cached, st)
  | none =>
    let p := fetchF scriptUrl
    let st' := { st with scriptCache := (scriptUrl, p) :: st.scriptCache,
                         scriptFetchLog := st.scriptFetchLog ++ [scriptUrl] }
    match p with
    | .error _ => (p, { st' with errorLog := st'.errorLog ++ [scriptUrl] })
    | .ok _ => (p, st')

/-- Effectful map, in list order: the synchronous part of
`Promise.all(xs.map(f))` — every element's resolution is started, in order,
before the combined promise settles. -/
def mapState (f : α → σ → β × σ) : List α → σ → List β × σ
  | [], st => ([], st)
  | a :: as, st =>
    let (b, st') := f a st
    let (bs, st'') := mapState f as st'
    (b :: bs, st'')

/-- The join of `Promise.all`: all fulfilled yields the value list, otherwise
the first (in index order) rejection wins — all element computations have
already run either way. -/
def collectAll : List (Except Err β) → Except Err (List β)
  | [] => .ok []
  | .ok b :: rest => (collectAll rest).map (fun bs => b :: bs)
  | .error e :: _ => .error e

/-- One element of `getExternalStyleSheets`'s `styles.map(...)`: inline markup
resolves directly via `getInlineCode`, a remote location goes through the
style cache. -/
def resolveStyle (fetchF : String → Except Err String) (styleLink : String) (st : CacheSt) :
    Except Err String × CacheSt :=
  if isInlineCode styleLink then (.ok (getInlineCode styleLink), st)
  else fetchStyle fetchF styleLink st

/-- `getExternalStyleSheets(styles, fetch)` from `src/index.js`. -/
def getExternalStyleSheetsM (fetchF : String → Except Err String) (styles : List String)
    (st : CacheSt) : Except Err (List String) × CacheSt :=
  let (rs, st') := mapState (resolveStyle fetchF) styles st
  (collectAll rs, st')

/-- One element of `getExternalScripts`'s `scripts.map(...)`: an inline string
resolves directly, a remote string goes through `fetchScript`, an object
descriptor with `async` set returns the handle `\x7bsrc, async: true, content\x7d`
immediately — `requestIdleCallback` defers the actual `fetchScript(src, opts)`
call (modelled separately in `runAsyncScript`) — and a non-async object
descriptor fetches like a remote string. -/
def resolveScript (fetchF : String → Except Err String) (script : Script) (st : CacheSt) :
    Except Err ScriptText × CacheSt :=
  match script with
  | .str s =>
    if isInlineCode s then (.ok (.text (getInlineCode s)), st)
    else
      let (r, st') := fetchScript fetchF s st
      (r.map .text, st')
  | .obj src async _crossOrigin =>
    if async then
      (.ok (.asyncHandle src), st)
    else
      let (r, st') := fetchScript fetchF src st
      (r.map .text, st')

/-- `getExternalScripts(scripts, fetch, errorCallback)` from `src/index.js`. -/
def getExternalScriptsM (fetchF : String → Except Err String) (scripts : List Script)
    (st : CacheSt) : Except Err (List ScriptText) × CacheSt :=
  let (rs, st') := mapState (resolveScript fetchF) scripts st
  (collectAll rs, st')

/-- Modelled from the spec: `genLinkReplaceSymbol` belongs to the template
parser (`process-tpl`), which is not under the provided sources; the spec only
requires it to generate the per-style placeholder comment that the embed step
later substitutes. -/
def genLinkReplaceSymbol (linkHref : String) : String :=
  "<!-- link " ++ linkHref ++ " replaced by import-html-entry -->"

/-- Modelled from the spec: `genScriptReplaceSymbol` belongs to the template
parser (`process-tpl`), which is not under the provided sources; it generates
the per-script placeholder comment. -/
def genScriptReplaceSymbol (scriptSrc : String) : String :=
  "<!-- script " ++ scriptSrc ++ " replaced by import-html-entry -->"

/-- The `styles.reduce` inside `getEmbedHTML`: substitute each style's
placeholder with the inline markup itself or a `<style>` block wrapping the
fetched text. -/
def embedReduce (template : String) (styles styleSheets : List String) : String :=
  (styles.zip styleSheets).foldl
    (fun html p =>
      replaceFirst html (genLinkReplaceSymbol p.1)
        (if isInlineCode p.1 then p.1
         else "<style>/* " ++ p.1 ++ " */" ++ p.2 ++ "</style>"))
    template

/-- `getEmbedHTML(template, styles, \x7bfetch\x7d)` from `src/index.js`: resolve all
styles (through the style cache), then substitute the placeholders. -/
def getEmbedHTML (template : String) (styles : List String)
    (fetchF : String → Except Err String) (st : CacheSt) : Except Err String × CacheSt :=
  match getExternalStyleSheetsM fetchF styles st with
  | (.ok styleSheets, st') => (.ok (embedReduce template styles styleSheets), st')
  | (.error e, st') => (.error e, st')

/-- The real global `window` object, as far as `getExecutableScript` touches
it: its `proxy` property. Sandboxes are object references, modelled by `Nat`
identity. -/
structure GlobalWin where
  proxy : Option Nat
deriving DecidableEq, Repr

/-- `getExecutableScript(scriptSrc, scriptText, \x7bproxy, strictGlobal,
scopedGlobalVariables\x7d)` from `src/index.js`. Besides producing the code
string it assigns `globalWindow.proxy = proxy` on the true global window
(via `(0, eval)('window')`), which is why it also transforms a `GlobalWin`.
Braces in the generated JavaScript are written with character escapes. -/
def getExecutableScript (scriptSrc scriptText : String) (proxy : Nat) (strictGlobal : Bool)
    (scopedGlobalVariables : List String) (g : GlobalWin) : String × GlobalWin :=
  let sourceUrl := if isInlineCode scriptSrc then "" else "//# sourceURL=" ++ scriptSrc ++ "\n"
  let scopedGlobalVariableDefinition :=
    if scopedGlobalVariables.length != 0 then
      "const \x7b" ++ String.intercalate "," scopedGlobalVariables ++ "\x7d=this;"
    else ""
  let g' : GlobalWin := { g with proxy := some proxy }
  let code :=
    if strictGlobal then
      if scopedGlobalVariableDefinition != "" then
        ";(function()\x7bwith(this)\x7b" ++ scopedGlobalVariableDefinition ++ scriptText ++ "\n"
          ++ sourceUrl ++ "\x7d\x7d).bind(window.proxy)();"
      else
        ";(function(window, self, globalThis)\x7bwith(window)\x7b;" ++ scriptText ++ "\n"
          ++ sourceUrl ++ "\x7d\x7d).bind(window.proxy)(window.proxy, window.proxy, window.proxy);"
    else
      ";(function(window, self, globalThis)\x7b;" ++ scriptText ++ "\n" ++ sourceUrl
        ++ "\x7d).bind(window.proxy)(window.proxy, window.proxy, window.proxy);"
  (code, g')

/-- Spec-side shape of the non-strict wrapper: an immediately-invoked function
whose parameter list is exactly `params`, each argument bound to `target` (the
sandbox alias), enclosing the script text and the trailing annotation. Used to
compare `getExecutableScript`'s output against the spec's description. -/
def specNonStrictWrapper (params : List String) (target scriptText annot : String) : String :=
  ((((";(function(" ++ String.intercalate ", " params ++ ")\x7b;") ++ scriptText) ++ "\n")
      ++ annot)
    ++ ("\x7d).bind(" ++ target ++ ")(" ++ String.intercalate ", " (params.map (fun _ => target))
      ++ ");")

/-- The per-invocation environment of `execScripts`, with the external
collaborators abstracted: `evalThrows i` is the outcome of `evalCode` for the
script at index `i` (`none` = runs to completion, `some e` = throws `e`);
`exportProp` is what `getGlobalProp` (the global-prop-diff collaborator)
identifies after the entry runs; `proxy` is the sandbox's property map at that
moment; `hasSuccess` records whether a `success` callback was supplied (in
which case `resolvePromise` is the callback, not the promise's `resolve`). -/
structure EvalEnv where
  evalThrows : Nat → Option Err
  exportProp : Option String
  proxy : List (String × JsVal)
  hasSuccess : Bool

/-- Observable events of one `execScripts` run, indexed by script position:
`issued i` — `exec` was invoked for index `i`; `evaled i` — `geval` ran the
script at index `i`; `deferredErr i` — `throwNonBlockingError` was used for
index `i`; `asyncAttached i` — the async handle's `content.then(...)` chain
was attached for index `i` (its code runs later, see `runAsyncScript`). -/
inductive Ev where
  | issued (i : Nat)
  | evaled (i : Nat)
  | deferredErr (i : Nat)
  | asyncAttached (i : Nat)
deriving DecidableEq, Repr

/-- Scheduler state: the chronological event trace plus the arguments of every
`resolvePromise` call made so far. -/
structure SchedSt where
  trace : List Ev
  resolveCalls : List JsVal
deriving DecidableEq, Repr

def record (e : Ev) (st : SchedSt) : SchedSt := { st with trace := st.trace ++ [e] }

def pushResolve (v : JsVal) (st : SchedSt) : SchedSt :=
  { st with resolveCalls := st.resolveCalls ++ [v] }

def emptySched : SchedSt := ⟨[], []⟩

/-- JavaScript truthiness of the `entry` argument (`!entry`): absent or the
empty string are falsy. -/
def entryTruthy : Option String → Bool
  | none => false
  | some s => !(s == "")

/-- `scriptSrc === entry`: only a plain-string descriptor can be strictly
equal to the entry identifier; an object descriptor never is. -/
def isEntryScript (entry : Option String) (script : Script) : Bool :=
  match script, entry with
  | .str s, some e => s == e
  | _, _ => false

/-- `obj[key]` with a possibly-undefined key: JavaScript coerces an undefined
property key to the string "undefined"; an absent property reads as undefined. -/
def jsIndex (obj : List (String × JsVal)) (key : Option String) : JsVal :=
  match obj.lookup (match key with | some k => k | none => "undefined") with
  | some v => v
  | none => .undefinedV

/-- `proxy[getGlobalProp(strictGlobal ? proxy : window)] || \x7b\x7d`: the captured
entry export — the value at the diffed property if truthy, else a fresh empty
object. -/
def exportsValue (env : EvalEnv) : JsVal :=
  let v := jsIndex env.proxy env.exportProp
  if truthy v then v else .emptyObj

/-- `geval(scriptSrc, inlineScript)` from `execScripts`: runs `beforeExec`,
`getExecutableScript` (modelled separately, including its `window.proxy`
assignment), `evalCode` and `afterExec`. Its observable effect here is the
`evaled` event; whether `evalCode` throws is `env.evalThrows i`. -/
def geval (env : EvalEnv) (i : Nat) (st : SchedSt) : SchedSt × Option Err :=
  (record (.evaled i) st, env.evalThrows i)

/-- `exec(scriptSrc, inlineScript, resolve)` from `execScripts`. The entry
branch runs `geval` and on success resolves with the captured export; an entry
exception is re-thrown (fatal). A non-entry script with synchronously
available text runs `geval` under try/catch, reporting an exception through
`throwNonBlockingError` (the `scriptSrc?.src` choice only affects the
annotation inside `getExecutableScript` and is not observable here). An async
handle merely has its `content.then(...).catch(...)` chain attached. The
`performance` marks and measures are diagnostic only and not modelled. -/
def exec (entry : Option String) (env : EvalEnv) (scriptSrc : Script)
    (inlineScript : ScriptText) (i : Nat) (st : SchedSt) : SchedSt × Option Err :=
  let st0 := record (.issued i) st
  if isEntryScript entry scriptSrc then
    match geval env i st0 with
    | (st1, none) => (pushResolve (exportsValue env) st1, none)
    | (st1, some e) => (st1, some e)
  else
    match inlineScript with
    | .text _s =>
      match geval env i st0 with
      | (st1, none) => (st1, none)
      | (st1, some _e) => (record (.deferredErr i) st1, none)
    | .asyncHandle _src => (record (.asyncAttached i) st0, none)

/-- `schedule(i, resolvePromise)` from `execScripts`, with the recursion depth
made explicit as fuel (`schedule` below instantiates it with the number of
remaining indices, which the `i < scripts.length` guard makes exact). Indexing
`scripts[i]` and `scriptsText[i]` is in lockstep — the only caller builds
`scriptsText` by `Promise.all` over `scripts.map`, so both lists have equal
length; the defensive `(st, none)` arms are unreachable from
`execScriptsModel`. An exception propagating out of `exec` aborts the
recursion (rejecting the promise whose executor ran `schedule`); otherwise,
at the last index with a falsy `entry` the promise is resolved with no
argument, and in every other case the next index is scheduled. -/
def scheduleN (entry : Option String) (env : EvalEnv) (scripts : List Script)
    (texts : List ScriptText) : Nat → Nat → SchedSt → SchedSt × Option Err
  | 0, _i, st => (st, none)
  | fuel + 1, i, st =>
    if i < scripts.length then
      match scripts[i]?, texts[i]? with
      | some scriptSrc, some inlineScript =>
        match exec entry env scriptSrc inlineScript i st with
        | (st', some e) => (st', some e)
        | (st', none) =>
          if !(entryTruthy entry) && i == scripts.length - 1 then
            (pushResolve JsVal.undefinedV st', none)
          else
            scheduleN entry env scripts texts fuel (i + 1) st'
      | _, _ => (st, none)
    else (st, none)

def schedule (entry : Option String) (env : EvalEnv) (scripts : List Script)
    (texts : List ScriptText) (i : Nat) (st : SchedSt) : SchedSt × Option Err :=
  scheduleN entry env scripts texts (scripts.length - i) i st

/-- Outcome of the promise `execScripts` returns. The promise's own `resolve`
is the `resolvePromise` only when no `success` callback was supplied; a
`resolve` call that happened before the executor threw wins (a later throw in
a `new Promise` executor is ignored once the promise is settled). -/
inductive POutcome where
  | resolved (v : JsVal)
  | rejected (e : Err)
  | pending
deriving DecidableEq, Repr

def outcome (hasSuccess : Bool) (st : SchedSt) (err : Option Err) : POutcome :=
  if hasSuccess then
    match err with
    | some e => .rejected e
    | none => .pending
  else
    match st.resolveCalls.head? with
    | some v => .resolved v
    | none =>
      match err with
      | some e => .rejected e
      | none => .pending

/-- `execScripts(entry, scripts, proxy, opts)` from `src/index.js`: resolve
all scripts (`getExternalScripts`), then `new Promise(resolve =>
schedule(0, success || resolve))`. A rejection of the batch resolution
rejects the returned promise before any script runs. -/
def execScriptsModel (entry : Option String) (env : EvalEnv) (scripts : List Script)
    (fetchF : String → Except Err String) (st : CacheSt) : POutcome × SchedSt × CacheSt :=
  match getExternalScriptsM fetchF scripts st with
  | (.ok scriptsText, st') =>
    let r := schedule entry env scripts scriptsText 0 emptySched
    (outcome env.hasSuccess r.1 r.2, r.1, st')
  | (.error e, st') => (.rejected e, emptySched, st')

/-- The deferred life of one async script at index `i`: when the environment
goes idle, `fetchScript(src, opts)` settles the handle's `content`; then
`content.then(text => geval(src, text)).catch(e => throwNonBlockingError(...))`
runs the code, any exception (of the fetch or of the evaluation) being
reported via the deferred re-throw. The final `Option Err` is what escapes
this chain to the surrounding promise machinery. -/
def runAsyncScript (env : EvalEnv) (fetchF : String → Except Err String) (src : String)
    (i : Nat) (st : CacheSt) (sst : SchedSt) : CacheSt × SchedSt × Option Err :=
  let (content, st') := fetchScript fetchF src st
  match content with
  | .ok _text =>
    match geval env i sst with
    | (sst', none) => (st', sst', none)
    | (sst', some _e) => (st', record (.deferredErr i) sst', none)
  | .error _e => (st', record (.deferredErr i) sst, none)

/-- The handle produced by the config-driven facade (`importEntry` with an
explicit `\x7bscripts, styles, html\x7d`). -/
structure Handle where
  template : String
  scripts : List String
  styles : List String
deriving DecidableEq, Repr

/-- `scripts[scripts.length - 1]`: the entry identifier the config-driven
handle passes to `execScripts`. -/
def configEntryArg (scripts : List String) : Option String :=
  scripts[scripts.length - 1]?

/-- The `execScripts` method of the config-driven handle:
`if (!scripts.length) return Promise.resolve();` then
`execScripts(scripts[scripts.length - 1], scripts, proxy, opts)`.
(The location-driven handle from `importHTML` has the identical guard, with
the parsed `entry` in place of the last element.) -/
def configExecScripts (h : Handle) (env : EvalEnv) (fetchF : String → Except Err String)
    (st : CacheSt) : POutcome × SchedSt × CacheSt :=
  if h.scripts.length == 0 then (.resolved .undefinedV, emptySched, st)
  else execScriptsModel (configEntryArg h.scripts) env (h.scripts.map Script.str) fetchF st

/-- A non-string argument to `importEntry`. A field holds `some list` exactly
when `Array.isArray` accepts it, `none` when it is absent or not an array;
`html` defaults to the empty string. -/
structure EntryConfig where
  scripts : Option (List String)
  styles : Option (List String)
  html : Option String

/-- The config branch of `importEntry(entry, opts)` from `src/index.js`: if
neither `scripts` nor `styles` is an array it throws
`new SyntaxError('entry scripts or styles should be array!')` synchronously
(state untouched); otherwise it synthesizes the placeholder template
(`reduceRight` prepends style placeholders, `reduce` appends script
placeholders), embeds the styles via `getEmbedHTML`, and yields the handle.
The string branch of `importEntry` delegates to `importHTML` and is outside
this model. -/
def importEntryConfig (cfg : EntryConfig) (fetchF : String → Except Err String)
    (st : CacheSt) : Except Err Handle × CacheSt :=
  if cfg.scripts.isSome || cfg.styles.isSome then
    let scripts := cfg.scripts.getD []
    let styles := cfg.styles.getD []
    let html := cfg.html.getD ""
    let withStylePlaceholder := styles.foldr (fun s acc => genLinkReplaceSymbol s ++ acc) html
    let withScriptPlaceholder :=
      scripts.foldl (fun acc s => acc ++ genScriptReplaceSymbol s) withStylePlaceholder
    match getEmbedHTML withScriptPlaceholder styles fetchF st with
    | (.ok embedHTML, st') =>
      (.ok { template := embedHTML, scripts := scripts, styles := styles }, st')
    | (.error e, st') => (.error e, st')
  else
    (.error "entry scripts or styles should be array!", st)

/-- One cache-touching operation of the process lifetime, carrying the fetch
capability supplied for it: a style batch, a script batch, or the idle-time
fetch of one async script's content. -/
inductive ResourceOp where
  | styleReq (fetchF : String → Except Err String) (styles : List String)
  | scriptReq (fetchF : String → Except Err String) (scripts : List Script)
  | idleReq (fetchF : String → Except Err String) (src : String)

def runOp (op : ResourceOp) (st : CacheSt) : CacheSt :=
  match op with
  | .styleReq fetchF styles => (getExternalStyleSheetsM fetchF styles st).2
  | .scriptReq fetchF scripts => (getExternalScriptsM fetchF scripts st).2
  | .idleReq fetchF src => (fetchScript fetchF src st).2

def runOps (ops : List ResourceOp) (st : CacheSt) : CacheSt :=
  ops.foldl (fun st op => runOp op st) st

/-- Cache soundness: each cache holds a location exactly when that location's
fetch has been issued from the corresponding call site, and each such fetch
was issued at most once. -/
def CacheInv (st : CacheSt) : Prop :=
  ∀ L : String,
    st.styleFetchLog.count L ≤ 1 ∧
    ((st.styleCache.lookup L).isSome ↔ L ∈ st.styleFetchLog) ∧
    st.scriptFetchLog.count L ≤ 1 ∧
    ((st.scriptCache.lookup L).isSome ↔ L ∈ st.scriptFetchLog)

/-- The script index an event belongs to. -/
def Ev.idx : Ev → Nat
  | .issued i => i
  | .evaled i => i
  | .deferredErr i => i
  | .asyncAttached i => i

/-- How a resolved `ScriptText` element corresponds to its descriptor: plain
and non-async descriptors resolve to synchronous text, async descriptors to
the handle carrying their own `src`. -/
def ShapeOk : Script → ScriptText → Prop
  | .str _, .text _ => True
  | .obj src true _, .asyncHandle s => s = src
  | .obj _ false _, .text _ => True
  | _, _ => False

/-! ## Case analysis of `exec` -/

theorem exec_entry_ok (entry : Option String) (env : EvalEnv) (sc : Script) (tx : ScriptText)
    (i : Nat) (st : SchedSt) (he : isEntryScript entry sc = true)
    (hok : env.evalThrows i = none) :
    exec entry env sc tx i st =
      (pushResolve (exportsValue env) (record (.evaled i) (record (.issued i) st)), none) := by
  simp only [exec, geval, he, if_true, hok]

theorem exec_entry_throw (entry : Option String) (env : EvalEnv) (sc : Script) (tx : ScriptText)
    (i : Nat) (st : SchedSt) (e : Err) (he : isEntryScript entry sc = true)
    (hth : env.evalThrows i = some e) :
    exec entry env sc tx i st = (record (.evaled i) (record (.issued i) st), some e) := by
  simp only [exec, geval, he, if_true, hth]

theorem exec_text_ok (entry : Option String) (env : EvalEnv) (sc : Script) (c : String)
    (i : Nat) (st : SchedSt) (hne : isEntryScript entry sc = false)
    (hok : env.evalThrows i = none) :
    exec entry env sc (.text c) i st = (record (.evaled i) (record (.issued i) st), none) := by
  simp only [exec, geval, hne, Bool.false_eq_true, if_false, hok]

theorem exec_text_throw (entry : Option String) (env : EvalEnv) (sc : Script) (c : String)
    (i : Nat) (st : SchedSt) (e : Err) (hne : isEntryScript entry sc = false)
    (hth : env.evalThrows i = some e) :
    exec entry env sc (.text c) i st =
      (record (.deferredErr i) (record (.evaled i) (record (.issued i) st)), none) := by
  simp only [exec, geval, hne, Bool.false_eq_true, if_false, hth]

theorem exec_async (entry : Option String) (env : EvalEnv) (sc : Script) (s0 : String)
    (i : Nat) (st : SchedSt) (hne : isEntryScript entry sc = false) :
    exec entry env sc (.asyncHandle s0) i st =
      (record (.asyncAttached i) (record (.issued i) st), none) := by
  simp only [exec, geval, hne, Bool.false_eq_true, if_false]

theorem exec_trace_sub (entry : Option String) (env : EvalEnv) (sc : Script) (tx : ScriptText)
    (i : Nat) (st : SchedSt) :
    ∀ ev, ev ∈ (exec entry env sc tx i st).1.trace → ev ∈ st.trace ∨ ev.idx = i := by
  intro ev hev
  cases he : isEntryScript entry sc with
  | true =>
    cases hth : env.evalThrows i with
    | none =>
      rw [exec_entry_ok entry env sc tx i st he hth] at hev
      simp only [pushResolve, record, List.mem_append, List.mem_singleton] at hev
      rcases hev with (hev | rfl) | rfl
      · exact Or.inl hev
      · exact Or.inr rfl
      · exact Or.inr rfl
    | some e =>
      rw [exec_entry_throw entry env sc tx i st e he hth] at hev
      simp only [record, List.mem_append, List.mem_singleton] at hev
      rcases hev with (hev | rfl) | rfl
      · exact Or.inl hev
      · exact Or.inr rfl
      · exact Or.inr rfl
  | false =>
    cases tx with
    | text c =>
      cases hth : env.evalThrows i with
      | none =>
        rw [exec_text_ok entry env sc c i st he hth] at hev
        simp only [record, List.mem_append, List.mem_singleton] at hev
        rcases hev with (hev | rfl) | rfl
        · exact Or.inl hev
        · exact Or.inr rfl
        · exact Or.inr rfl
      | some e =>
        rw [exec_text_throw entry env sc c i st e he hth] at hev
        simp only [record, List.mem_append, List.mem_singleton] at hev
        rcases hev with ((hev | rfl) | rfl) | rfl
        · exact Or.inl hev
        · exact Or.inr rfl
        · exact Or.inr rfl
        · exact Or.inr rfl
    | asyncHandle s0 =>
      rw [exec_async entry env sc s0 i st he] at hev
      simp only [record, List.mem_append, List.mem_singleton] at hev
      rcases hev with (hev | rfl) | rfl
      · exact Or.inl hev
      · exact Or.inr rfl
      · exact Or.inr rfl

theorem exec_calls_sub (entry : Option String) (env : EvalEnv) (sc : Script) (tx : ScriptText)
    (i : Nat) (st : SchedSt) :
    ∃ l, (exec entry env sc tx i st).1.resolveCalls = st.resolveCalls ++ l := by
  cases he : isEntryScript entry sc with
  | true =>
    cases hth : env.evalThrows i with
    | none =>
      rw [exec_entry_ok entry env sc tx i st he hth]
      exact ⟨[exportsValue env], rfl⟩
    | some e =>
      rw [exec_entry_throw entry env sc tx i st e he hth]
      exact ⟨[], (List.append_nil _).symm⟩
  | false =>
    cases tx with
    | text c =>
      cases hth : env.evalThrows i with
      | none =>
        rw [exec_text_ok entry env sc c i st he hth]
        exact ⟨[], (List.append_nil _).symm⟩
      | some e =>
        rw [exec_text_throw entry env sc c i st e he hth]
        exact ⟨[], (List.append_nil _).symm⟩
    | asyncHandle s0 =>
      rw [exec_async entry env sc s0 i st he]
      exact ⟨[], (List.append_nil _).symm⟩

theorem exec_nonentry_facts (entry : Option String) (env : EvalEnv) (sc : Script)
    (tx : ScriptText) (i : Nat) (st : SchedSt) (hne : isEntryScript entry sc = false) :
    ∃ st2, exec entry env sc tx i st = (st2, none) ∧
      st2.resolveCalls = st.resolveCalls ∧
      (∀ ev, ev ∈ st.trace → ev ∈ st2.trace) := by
  cases tx with
  | text c =>
    cases hth : env.evalThrows i with
    | none =>
      refine ⟨_, exec_text_ok entry env sc c i st hne hth, rfl, ?_⟩
      intro ev hev
      simp only [record, List.mem_append]
      exact Or.inl (Or.inl hev)
    | some e =>
      refine ⟨_, exec_text_throw entry env sc c i st e hne hth, rfl, ?_⟩
      intro ev hev
      simp only [record, List.mem_append]
      exact Or.inl (Or.inl (Or.inl hev))
  | asyncHandle s0 =>
    refine ⟨_, exec_async entry env sc s0 i st hne, rfl, ?_⟩
    intro ev hev
    simp only [record, List.mem_append]
    exact Or.inl (Or.inl hev)

/-! ## Unfolding interface of `schedule` -/

theorem schedule_stop (entry : Option String) (env : EvalEnv) (scripts : List Script)
    (texts : List ScriptText) (i : Nat) (st : SchedSt) (h : ¬ i < scripts.length) :
    schedule entry env scripts texts i st = (st, none) := by
  unfold schedule
  have h0 : scripts.length - i = 0 := by omega
  rw [h0]
  rfl

theorem schedule_step (entry : Option String) (env : EvalEnv) (scripts : List Script)
    (texts : List ScriptText) (i : Nat) (st : SchedSt) (sc : Script) (tx : ScriptText)
    (h : i < scripts.length) (hsc : scripts[i]? = some sc) (ht : texts[i]? = some tx) :
    schedule entry env scripts texts i st =
      match exec entry env sc tx i st with
      | (st', some e) => (st', some e)
      | (st', none) =>
        if !(entryTruthy entry) && i == scripts.length - 1 then
          (pushResolve JsVal.undefinedV st', none)
        else
          schedule entry env scripts texts (i + 1) st' := by
  show scheduleN entry env scripts texts (scripts.length - i) i st = _
  have h1 : scripts.length - i = (scripts.length - (i + 1)) + 1 := by omega
  rw [h1, scheduleN, if_pos h, hsc, ht]
  rfl

theorem schedule_step_err (entry : Option String) (env : EvalEnv) (scripts : List Script)
    (texts : List ScriptText) (i : Nat) (st st' : SchedSt) (sc : Script) (tx : ScriptText)
    (e : Err) (h : i < scripts.length) (hsc : scripts[i]? = some sc)
    (ht : texts[i]? = some tx) (hexec : exec entry env sc tx i st = (st', some e)) :
    schedule entry env scripts texts i st = (st', some e) := by
  rw [schedule_step entry env scripts texts i st sc tx h hsc ht, hexec]

theorem schedule_step_ok (entry : Option String) (env : EvalEnv) (scripts : List Script)
    (texts : List ScriptText) (i : Nat) (st st' : SchedSt) (sc : Script) (tx : ScriptText)
    (h : i < scripts.length) (hsc : scripts[i]? = some sc)
    (ht : texts[i]? = some tx) (hexec : exec entry env sc tx i st = (st', none)) :
    schedule entry env scripts texts i st =
      if !(entryTruthy entry) && i == scripts.length - 1 then
        (pushResolve JsVal.undefinedV st', none)
      else
        schedule entry env scripts texts (i + 1) st' := by
  rw [schedule_step entry env scripts texts i st sc tx h hsc ht, hexec]

theorem exec_ok_facts (entry : Option String) (env : EvalEnv) (sc : Script) (tx : ScriptText)
    (i : Nat) (st : SchedSt)
    (hok : isEntryScript entry sc = true → env.evalThrows i = none)
    (hal : ∀ s', tx = .asyncHandle s' → isEntryScript entry sc = false) :
    ∃ st2, exec entry env sc tx i st = (st2, none) ∧
      (∀ ev, ev ∈ st.trace → ev ∈ st2.trace) ∧
      Ev.issued i ∈ st2.trace ∧
      (∀ c, tx = .text c → Ev.evaled i ∈ st2.trace) ∧
      (∀ c e', tx = .text c → isEntryScript entry sc = false → env.evalThrows i = some e' →
        Ev.deferredErr i ∈ st2.trace) ∧
      (∀ s', tx = .asyncHandle s' → Ev.asyncAttached i ∈ st2.trace) := by
  cases he : isEntryScript entry sc with
  | true =>
    have hth := hok he
    refine ⟨_, exec_entry_ok entry env sc tx i st he hth, ?_, ?_, ?_, ?_, ?_⟩
    · intro ev hev
      simp only [pushResolve, record, List.mem_append]
      exact Or.inl (Or.inl hev)
    · simp [pushResolve, record]
    · intro c _
      simp [pushResolve, record]
    · intro c e' _ hne _
      simp at hne
    · intro s' hs'
      have hf := hal s' hs'
      rw [he] at hf
      simp at hf
  | false =>
    cases tx with
    | text c =>
      cases hth : env.evalThrows i with
      | none =>
        refine ⟨_, exec_text_ok entry env sc c i st he hth, ?_, ?_, ?_, ?_, ?_⟩
        · intro ev hev
          simp only [record, List.mem_append]
          exact Or.inl (Or.inl hev)
        · simp [record]
        · intro c' _
          simp [record]
        · intro c' e' _ _ hth'
          simp at hth'
        · intro s' hs'
          simp at hs'
      | some e =>
        refine ⟨_, exec_text_throw entry env sc c i st e he hth, ?_, ?_, ?_, ?_, ?_⟩
        · intro ev hev
          simp only [record, List.mem_append]
          exact Or.inl (Or.inl (Or.inl hev))
        · simp [record]
        · intro c' _
          simp [record]
        · intro c' e' _ _ _
          simp [record]
        · intro s' hs'
          simp at hs'
    | asyncHandle s0 =>
      refine ⟨_, exec_async entry env sc s0 i st he, ?_, ?_, ?_, ?_, ?_⟩
      · intro ev hev
        simp only [record, List.mem_append]
        exact Or.inl (Or.inl hev)
      · simp [record]
      · intro c' hc'
        simp at hc'
      · intro c' e' hc' _ _
        simp at hc'
      · intro s' _
        simp [record]

/-- Master lemma for runs in which the entry script (wherever it occurs) does
not throw and async handles never sit at an entry position: the scheduler
propagates no exception, preserves the existing trace, issues every remaining
index, evaluates every synchronously available script, reports every
non-entry throw through the deferred re-throw, and attaches every async
handle. -/
theorem sched_run (entry : Option String) (env : EvalEnv) (scripts : List Script)
    (texts : List ScriptText)
    (hlen : texts.length = scripts.length)
    (hok : ∀ (j : Nat) (sj : Script), scripts[j]? = some sj → isEntryScript entry sj = true →
      env.evalThrows j = none)
    (hshape : ∀ (j : Nat) (s' : String) (sj : Script),
      texts[j]? = some (.asyncHandle s') → scripts[j]? = some sj →
      isEntryScript entry sj = false) :
    ∀ i st,
      (schedule entry env scripts texts i st).2 = none ∧
      (∀ ev, ev ∈ st.trace → ev ∈ (schedule entry env scripts texts i st).1.trace) ∧
      (∀ j, i ≤ j → j < scripts.length →
        Ev.issued j ∈ (schedule entry env scripts texts i st).1.trace) ∧
      (∀ j c, i ≤ j → texts[j]? = some (.text c) →
        Ev.evaled j ∈ (schedule entry env scripts texts i st).1.trace) ∧
      (∀ j c sj e', i ≤ j → texts[j]? = some (.text c) → scripts[j]? = some sj →
        isEntryScript entry sj = false → env.evalThrows j = some e' →
        Ev.deferredErr j ∈ (schedule entry env scripts texts i st).1.trace) ∧
      (∀ j s', i ≤ j → texts[j]? = some (.asyncHandle s') →
        Ev.asyncAttached j ∈ (schedule entry env scripts texts i st).1.trace) := by
  suffices H : ∀ n i st, scripts.length - i ≤ n →
      (schedule entry env scripts texts i st).2 = none ∧
      (∀ ev, ev ∈ st.trace → ev ∈ (schedule entry env scripts texts i st).1.trace) ∧
      (∀ j, i ≤ j → j < scripts.length →
        Ev.issued j ∈ (schedule entry env scripts texts i st).1.trace) ∧
      (∀ j c, i ≤ j → texts[j]? = some (.text c) →
        Ev.evaled j ∈ (schedule entry env scripts texts i st).1.trace) ∧
      (∀ j c sj e', i ≤ j → texts[j]? = some (.text c) → scripts[j]? = some sj →
        isEntryScript entry sj = false → env.evalThrows j = some e' →
        Ev.deferredErr j ∈ (schedule entry env scripts texts i st).1.trace) ∧
      (∀ j s', i ≤ j → texts[j]? = some (.asyncHandle s') →
        Ev.asyncAttached j ∈ (schedule entry env scripts texts i st).1.trace) by
    intro i st
    exact H (scripts.length - i) i st le_rfl
  intro n
  induction n with
  | zero =>
    intro i st hle
    have hstop : ¬ i < scripts.length := by omega
    rw [schedule_stop entry env scripts texts i st hstop]
    refine ⟨rfl, fun ev h => h, ?_, ?_, ?_, ?_⟩
    · intro j hij hj
      omega
    · intro j c hij hjt
      have hj : j < texts.length := (List.getElem?_eq_some.mp hjt).1
      omega
    · intro j c sj e' hij hjt _ _ _
      have hj : j < texts.length := (List.getElem?_eq_some.mp hjt).1
      omega
    · intro j s' hij hjt
      have hj : j < texts.length := (List.getElem?_eq_some.mp hjt).1
      omega
  | succ n ih =>
    intro i st hle
    by_cases h : i < scripts.length
    · have hsc : scripts[i]? = some scripts[i] := List.getElem?_eq_getElem h
      have hti : i < texts.length := by omega
      have ht : texts[i]? = some texts[i] := List.getElem?_eq_getElem hti
      obtain ⟨st2, hexec, hmono2, hiss2, hev2, hdef2, hasy2⟩ :=
        exec_ok_facts entry env (scripts[i]) (texts[i]) i st
          (fun he => hok i _ hsc he)
          (fun s' hs' => hshape i s' _ (hs' ▸ ht) hsc)
      rw [schedule_step_ok entry env scripts texts i st st2 _ _ h hsc ht hexec]
      by_cases hc : (!(entryTruthy entry) && i == scripts.length - 1) = true
      · rw [if_pos hc]
        have hlast : i = scripts.length - 1 := by
          have hc' := hc
          simp only [Bool.and_eq_true, beq_iff_eq] at hc'
          exact hc'.2
        refine ⟨rfl, ?_, ?_, ?_, ?_, ?_⟩
        · intro ev hev
          exact hmono2 ev hev
        · intro j hij hj
          have hji : j = i := by omega
          subst hji
          exact hiss2
        · intro j c hij hjt
          have hj : j < texts.length := (List.getElem?_eq_some.mp hjt).1
          have hji : j = i := by omega
          subst hji
          rw [ht] at hjt
          exact hev2 c (Option.some.inj hjt)
        · intro j c sj e' hij hjt hjs hne hth
          have hj : j < texts.length := (List.getElem?_eq_some.mp hjt).1
          have hji : j = i := by omega
          subst hji
          rw [ht] at hjt
          rw [hsc] at hjs
          exact hdef2 c e' (Option.some.inj hjt) ((Option.some.inj hjs) ▸ hne) hth
        · intro j s' hij hjt
          have hj : j < texts.length := (List.getElem?_eq_some.mp hjt).1
          have hji : j = i := by omega
          subst hji
          rw [ht] at hjt
          exact hasy2 s' (Option.some.inj hjt)
      · rw [if_neg hc]
        obtain ⟨tl_err, tl_mono, tl_iss, tl_ev, tl_def, tl_asy⟩ := ih (i + 1) st2 (by omega)
        refine ⟨tl_err, ?_, ?_, ?_, ?_, ?_⟩
        · intro ev hev
          exact tl_mono ev (hmono2 ev hev)
        · intro j hij hj
          rcases Nat.eq_or_lt_of_le hij with heq | hlt
          · exact heq ▸ tl_mono _ hiss2
          · exact tl_iss j (by omega) hj
        · intro j c hij hjt
          rcases Nat.eq_or_lt_of_le hij with heq | hlt
          · subst heq
            rw [ht] at hjt
            exact tl_mono _ (hev2 c (Option.some.inj hjt))
          · exact tl_ev j c (by omega) hjt
        · intro j c sj e' hij hjt hjs hne hth
          rcases Nat.eq_or_lt_of_le hij with heq | hlt
          · subst heq
            rw [ht] at hjt
            rw [hsc] at hjs
            exact tl_mono _ (hdef2 c e' (Option.some.inj hjt) ((Option.some.inj hjs) ▸ hne) hth)
          · exact tl_def j c sj e' (by omega) hjt hjs hne hth
        · intro j s' hij hjt
          rcases Nat.eq_or_lt_of_le hij with heq | hlt
          · subst heq
            rw [ht] at hjt
            exact tl_mono _ (hasy2 s' (Option.some.inj hjt))
          · exact tl_asy j s' (by omega) hjt
    · rw [schedule_stop entry env scripts texts i st h]
      refine ⟨rfl, fun ev hv => hv, ?_, ?_, ?_, ?_⟩
      · intro j hij hj
        omega
      · intro j c hij hjt
        have hj : j < texts.length := (List.getElem?_eq_some.mp hjt).1
        omega
      · intro j c sj e' hij hjt _ _ _
        have hj : j < texts.length := (List.getElem?_eq_some.mp hjt).1
        omega
      · intro j s' hij hjt
        have hj : j < texts.length := (List.getElem?_eq_some.mp hjt).1
        omega

theorem schedule_stop_texts (entry : Option String) (env : EvalEnv) (scripts : List Script)
    (texts : List ScriptText) (i : Nat) (st : SchedSt) (h : i < scripts.length)
    (ht : texts[i]? = none) :
    schedule entry env scripts texts i st = (st, none) := by
  show scheduleN entry env scripts texts (scripts.length - i) i st = _
  have h1 : scripts.length - i = (scripts.length - (i + 1)) + 1 := by omega
  have hsc : scripts[i]? = some scripts[i] := List.getElem?_eq_getElem h
  rw [h1, scheduleN, if_pos h, hsc, ht]

theorem isEntryScript_none (sc : Script) : isEntryScript none sc = false := by
  cases sc <;> rfl

theorem exec_evaled_src (entry : Option String) (env : EvalEnv) (sc : Script) (tx : ScriptText)
    (i : Nat) (st : SchedSt) (j : Nat) :
    Ev.evaled j ∈ (exec entry env sc tx i st).1.trace →
      Ev.evaled j ∈ st.trace ∨
      (j = i ∧ (isEntryScript entry sc = true ∨ ∃ c, tx = .text c)) := by
  intro hev
  cases he : isEntryScript entry sc with
  | true =>
    cases hth : env.evalThrows i with
    | none =>
      rw [exec_entry_ok entry env sc tx i st he hth] at hev
      simp only [pushResolve, record, List.mem_append, List.mem_singleton] at hev
      rcases hev with (hev | hev) | hev
      · exact Or.inl hev
      · exact absurd hev (by simp)
      · exact Or.inr ⟨(Ev.evaled.inj hev), Or.inl rfl⟩
    | some e =>
      rw [exec_entry_throw entry env sc tx i st e he hth] at hev
      simp only [record, List.mem_append, List.mem_singleton] at hev
      rcases hev with (hev | hev) | hev
      · exact Or.inl hev
      · exact absurd hev (by simp)
      · exact Or.inr ⟨(Ev.evaled.inj hev), Or.inl rfl⟩
  | false =>
    cases tx with
    | text c =>
      cases hth : env.evalThrows i with
      | none =>
        rw [exec_text_ok entry env sc c i st he hth] at hev
        simp only [record, List.mem_append, List.mem_singleton] at hev
        rcases hev with (hev | hev) | hev
        · exact Or.inl hev
        · exact absurd hev (by simp)
        · exact Or.inr ⟨(Ev.evaled.inj hev), Or.inr ⟨c, rfl⟩⟩
      | some e =>
        rw [exec_text_throw entry env sc c i st e he hth] at hev
        simp only [record, List.mem_append, List.mem_singleton] at hev
        rcases hev with ((hev | hev) | hev) | hev
        · exact Or.inl hev
        · exact absurd hev (by simp)
        · exact Or.inr ⟨(Ev.evaled.inj hev), Or.inr ⟨c, rfl⟩⟩
        · exact absurd hev (by simp)
    | asyncHandle s0 =>
      rw [exec_async entry env sc s0 i st he] at hev
      simp only [record, List.mem_append, List.mem_singleton] at hev
      rcases hev with (hev | hev) | hev
      · exact Or.inl hev
      · exact absurd hev (by simp)
      · exact absurd hev (by simp)

/-- `resolvePromise` calls only accumulate: whatever the scheduler does, the
calls already made stay in front. -/
theorem sched_calls_mono (entry : Option String) (env : EvalEnv) (scripts : List Script)
    (texts : List ScriptText) :
    ∀ i st, ∃ l, (schedule entry env scripts texts i st).1.resolveCalls
      = st.resolveCalls ++ l := by
  suffices H : ∀ n i st, scripts.length - i ≤ n →
      ∃ l, (schedule entry env scripts texts i st).1.resolveCalls = st.resolveCalls ++ l by
    intro i st
    exact H (scripts.length - i) i st le_rfl
  intro n
  induction n with
  | zero =>
    intro i st hle
    rw [schedule_stop entry env scripts texts i st (by omega)]
    exact ⟨[], (List.append_nil _).symm⟩
  | succ n ih =>
    intro i st hle
    by_cases h : i < scripts.length
    · have hsc : scripts[i]? = some scripts[i] := List.getElem?_eq_getElem h
      cases ht : texts[i]? with
      | none =>
        rw [schedule_stop_texts entry env scripts texts i st h ht]
        exact ⟨[], (List.append_nil _).symm⟩
      | some tx =>
        obtain ⟨l1, hl1⟩ := exec_calls_sub entry env (scripts[i]) tx i st
        rcases hex : exec entry env (scripts[i]) tx i st with ⟨st', err⟩
        rw [hex] at hl1
        cases err with
        | some e =>
          rw [schedule_step_err entry env scripts texts i st st' _ _ e h hsc ht hex]
          exact ⟨l1, hl1⟩
        | none =>
          rw [schedule_step_ok entry env scripts texts i st st' _ _ h hsc ht hex]
          by_cases hc : (!(entryTruthy entry) && i == scripts.length - 1) = true
          · rw [if_pos hc]
            refine ⟨l1 ++ [JsVal.undefinedV], ?_⟩
            simp only [pushResolve]
            rw [hl1, List.append_assoc]
          · rw [if_neg hc]
            obtain ⟨l2, hl2⟩ := ih (i + 1) st' (by omega)
            refine ⟨l1 ++ l2, ?_⟩
            rw [hl2, hl1, List.append_assoc]
    · rw [schedule_stop entry env scripts texts i st h]
      exact ⟨[], (List.append_nil _).symm⟩

/-- With no entry identifier, the scheduler never faults and resolves exactly
once, with no argument, at the last index. -/
theorem sched_calls_entry_none (env : EvalEnv) (scripts : List Script)
    (texts : List ScriptText) (hlen : texts.length = scripts.length) :
    ∀ i st, i < scripts.length →
      (schedule none env scripts texts i st).2 = none ∧
      (schedule none env scripts texts i st).1.resolveCalls
        = st.resolveCalls ++ [JsVal.undefinedV] := by
  suffices H : ∀ n i st, scripts.length - i ≤ n → i < scripts.length →
      (schedule none env scripts texts i st).2 = none ∧
      (schedule none env scripts texts i st).1.resolveCalls
        = st.resolveCalls ++ [JsVal.undefinedV] by
    intro i st hi
    exact H (scripts.length - i) i st le_rfl hi
  intro n
  induction n with
  | zero =>
    intro i st hle hi
    omega
  | succ n ih =>
    intro i st hle hi
    have hsc : scripts[i]? = some scripts[i] := List.getElem?_eq_getElem hi
    have hti : i < texts.length := by omega
    have ht : texts[i]? = some texts[i] := List.getElem?_eq_getElem hti
    obtain ⟨st2, hexec, hcalls2, _⟩ :=
      exec_nonentry_facts none env (scripts[i]) (texts[i]) i st (isEntryScript_none _)
    rw [schedule_step_ok none env scripts texts i st st2 _ _ hi hsc ht hexec]
    by_cases hlasti : i = scripts.length - 1
    · have hbeq : (i == scripts.length - 1) = true := beq_iff_eq.mpr hlasti
      have hcond : (!(entryTruthy none) && i == scripts.length - 1) = true := by
        simp [entryTruthy, hbeq]
      rw [if_pos hcond]
      refine ⟨rfl, ?_⟩
      simp only [pushResolve]
      rw [hcalls2]
    · have hbeq : (i == scripts.length - 1) = false := beq_eq_false_iff_ne.mpr hlasti
      have hcond : ¬((!(entryTruthy none) && i == scripts.length - 1) = true) := by
        simp [entryTruthy, hbeq]
      rw [if_neg hcond]
      have hi1 : i + 1 < scripts.length := by omega
      obtain ⟨herr, hcalls⟩ := ih (i + 1) st2 (by omega) hi1
      exact ⟨herr, by rw [hcalls, hcalls2]⟩

/-- With a truthy entry identifier whose first occurrence is at index `k` and
whose evaluation succeeds, the first `resolvePromise` call carries the
captured export value. -/
theorem sched_first_entry (entry : Option String) (env : EvalEnv) (scripts : List Script)
    (texts : List ScriptText) (htr : entryTruthy entry = true)
    (hlen : texts.length = scripts.length)
    (k : Nat) (sk : Script) (hk : scripts[k]? = some sk) (hek : isEntryScript entry sk = true)
    (hkok : env.evalThrows k = none) :
    ∀ i st, i ≤ k →
      (∀ (j : Nat) (sj : Script), i ≤ j → j < k → scripts[j]? = some sj →
        isEntryScript entry sj = false) →
      ∃ rest, (schedule entry env scripts texts i st).1.resolveCalls
        = st.resolveCalls ++ (exportsValue env :: rest) := by
  have hklen : k < scripts.length := (List.getElem?_eq_some.mp hk).1
  suffices H : ∀ n i st, k - i ≤ n → i ≤ k →
      (∀ (j : Nat) (sj : Script), i ≤ j → j < k → scripts[j]? = some sj →
        isEntryScript entry sj = false) →
      ∃ rest, (schedule entry env scripts texts i st).1.resolveCalls
        = st.resolveCalls ++ (exportsValue env :: rest) by
    intro i st hik hpre
    exact H (k - i) i st le_rfl hik hpre
  intro n
  induction n with
  | zero =>
    intro i st hle hik hpre
    have hik' : i = k := by omega
    subst hik'
    have hsc : scripts[i]? = some scripts[i] := List.getElem?_eq_getElem hklen
    have hsck : scripts[i] = sk := Option.some.inj (hsc ▸ hk)
    have hti : i < texts.length := by omega
    have ht : texts[i]? = some texts[i] := List.getElem?_eq_getElem hti
    have hexec := exec_entry_ok entry env (scripts[i]) (texts[i]) i st (hsck ▸ hek) hkok
    rw [schedule_step_ok entry env scripts texts i st _ _ _ hklen hsc ht hexec]
    have hcond : ¬((!(entryTruthy entry) && i == scripts.length - 1) = true) := by
      simp [htr]
    rw [if_neg hcond]
    obtain ⟨l, hl⟩ := sched_calls_mono entry env scripts texts (i + 1)
      (pushResolve (exportsValue env) (record (.evaled i) (record (.issued i) st)))
    refine ⟨l, ?_⟩
    rw [hl]
    simp only [pushResolve, record]
    rw [List.append_assoc]
    rfl
  | succ n ih =>
    intro i st hle hik hpre
    rcases Nat.eq_or_lt_of_le hik with heq | hlt
    · subst heq
      -- same as the base case: i = k
      have hsc : scripts[i]? = some scripts[i] := List.getElem?_eq_getElem hklen
      have hsck : scripts[i] = sk := Option.some.inj (hsc ▸ hk)
      have hti : i < texts.length := by omega
      have ht : texts[i]? = some texts[i] := List.getElem?_eq_getElem hti
      have hexec := exec_entry_ok entry env (scripts[i]) (texts[i]) i st (hsck ▸ hek) hkok
      rw [schedule_step_ok entry env scripts texts i st _ _ _ hklen hsc ht hexec]
      have hcond : ¬((!(entryTruthy entry) && i == scripts.length - 1) = true) := by
        simp [htr]
      rw [if_neg hcond]
      obtain ⟨l, hl⟩ := sched_calls_mono entry env scripts texts (i + 1)
        (pushResolve (exportsValue env) (record (.evaled i) (record (.issued i) st)))
      refine ⟨l, ?_⟩
      rw [hl]
      simp only [pushResolve, record]
      rw [List.append_assoc]
      rfl
    · have hilen : i < scripts.length := by omega
      have hsc : scripts[i]? = some scripts[i] := List.getElem?_eq_getElem hilen
      have hti : i < texts.length := by omega
      have ht : texts[i]? = some texts[i] := List.getElem?_eq_getElem hti
      obtain ⟨st2, hexec, hcalls2, _⟩ :=
        exec_nonentry_facts entry env (scripts[i]) (texts[i]) i st
          (hpre i (scripts[i]) le_rfl hlt hsc)
      rw [schedule_step_ok entry env scripts texts i st st2 _ _ hilen hsc ht hexec]
      have hcond : ¬((!(entryTruthy entry) && i == scripts.length - 1) = true) := by
        simp [htr]
      rw [if_neg hcond]
      obtain ⟨rest, hrest⟩ := ih (i + 1) st2 (by omega) (by omega)
        (fun j sj hj1 hj2 hj3 => hpre j sj (by omega) hj2 hj3)
      exact ⟨rest, by rw [hrest, hcalls2]⟩

/-- Fatal halt: with a truthy entry identifier whose first occurrence is at
index `t` and whose evaluation throws `e`, the scheduler propagates `e`,
makes no `resolvePromise` call, and touches no index beyond `t`. -/
theorem sched_halt (entry : Option String) (env : EvalEnv) (scripts : List Script)
    (texts : List ScriptText) (htr : entryTruthy entry = true)
    (hlen : texts.length = scripts.length)
    (t : Nat) (stt : Script) (e : Err) (hts : scripts[t]? = some stt)
    (het : isEntryScript entry stt = true) (hth : env.evalThrows t = some e) :
    ∀ i st, i ≤ t →
      (∀ (j : Nat) (sj : Script), i ≤ j → j < t → scripts[j]? = some sj →
        isEntryScript entry sj = false) →
      (schedule entry env scripts texts i st).2 = some e ∧
      (schedule entry env scripts texts i st).1.resolveCalls = st.resolveCalls ∧
      (∀ ev, ev ∈ (schedule entry env scripts texts i st).1.trace →
        ev ∈ st.trace ∨ ev.idx ≤ t) := by
  have htlen : t < scripts.length := (List.getElem?_eq_some.mp hts).1
  suffices H : ∀ n i st, t - i ≤ n → i ≤ t →
      (∀ (j : Nat) (sj : Script), i ≤ j → j < t → scripts[j]? = some sj →
        isEntryScript entry sj = false) →
      (schedule entry env scripts texts i st).2 = some e ∧
      (schedule entry env scripts texts i st).1.resolveCalls = st.resolveCalls ∧
      (∀ ev, ev ∈ (schedule entry env scripts texts i st).1.trace →
        ev ∈ st.trace ∨ ev.idx ≤ t) by
    intro i st hik hpre
    exact H (t - i) i st le_rfl hik hpre
  intro n
  induction n with
  | zero =>
    intro i st hle hik hpre
    have hik' : i = t := by omega
    subst hik'
    have hsc : scripts[i]? = some scripts[i] := List.getElem?_eq_getElem htlen
    have hsct : scripts[i] = stt := Option.some.inj (hsc ▸ hts)
    have hti : i < texts.length := by omega
    have ht : texts[i]? = some texts[i] := List.getElem?_eq_getElem hti
    have hexec := exec_entry_throw entry env (scripts[i]) (texts[i]) i st e (hsct ▸ het) hth
    rw [schedule_step_err entry env scripts texts i st _ _ _ e htlen hsc ht hexec]
    refine ⟨rfl, rfl, ?_⟩
    intro ev hev
    simp only [record, List.mem_append, List.mem_singleton] at hev
    rcases hev with (hev | rfl) | rfl
    · exact Or.inl hev
    · exact Or.inr le_rfl
    · exact Or.inr le_rfl
  | succ n ih =>
    intro i st hle hik hpre
    rcases Nat.eq_or_lt_of_le hik with heq | hlt
    · subst heq
      have hsc : scripts[i]? = some scripts[i] := List.getElem?_eq_getElem htlen
      have hsct : scripts[i] = stt := Option.some.inj (hsc ▸ hts)
      have hti : i < texts.length := by omega
      have ht : texts[i]? = some texts[i] := List.getElem?_eq_getElem hti
      have hexec := exec_entry_throw entry env (scripts[i]) (texts[i]) i st e (hsct ▸ het) hth
      rw [schedule_step_err entry env scripts texts i st _ _ _ e htlen hsc ht hexec]
      refine ⟨rfl, rfl, ?_⟩
      intro ev hev
      simp only [record, List.mem_append, List.mem_singleton] at hev
      rcases hev with (hev | rfl) | rfl
      · exact Or.inl hev
      · exact Or.inr le_rfl
      · exact Or.inr le_rfl
    · have hilen : i < scripts.length := by omega
      have hsc : scripts[i]? = some scripts[i] := List.getElem?_eq_getElem hilen
      have hti : i < texts.length := by omega
      have ht : texts[i]? = some texts[i] := List.getElem?_eq_getElem hti
      obtain ⟨st2, hexec, hcalls2, _⟩ :=
        exec_nonentry_facts entry env (scripts[i]) (texts[i]) i st
          (hpre i (scripts[i]) le_rfl hlt hsc)
      rw [schedule_step_ok entry env scripts texts i st st2 _ _ hilen hsc ht hexec]
      have hcond : ¬((!(entryTruthy entry) && i == scripts.length - 1) = true) := by
        simp [htr]
      rw [if_neg hcond]
      obtain ⟨herr, hcalls, htrace⟩ := ih (i + 1) st2 (by omega) (by omega)
        (fun j sj hj1 hj2 hj3 => hpre j sj (by omega) hj2 hj3)
      refine ⟨herr, by rw [hcalls, hcalls2], ?_⟩
      intro ev hev
      rcases htrace ev hev with hev2 | hidx
      · have := exec_trace_sub entry env (scripts[i]) (texts[i]) i st ev
        rw [hexec] at this
        rcases this hev2 with hin | hidx'
        · exact Or.inl hin
        · exact Or.inr (by omega)
      · exact Or.inr hidx

/-- An `evaled` event can only come from an entry-matching descriptor or a
script whose text was synchronously available — never from an async handle
during the synchronous scheduling pass. -/
theorem sched_evaled_src (entry : Option String) (env : EvalEnv) (scripts : List Script)
    (texts : List ScriptText) :
    ∀ i st j, Ev.evaled j ∈ (schedule entry env scripts texts i st).1.trace →
      Ev.evaled j ∈ st.trace ∨
      (∃ sj, scripts[j]? = some sj ∧ isEntryScript entry sj = true) ∨
      (∃ c, texts[j]? = some (.text c)) := by
  suffices H : ∀ n i st j, scripts.length - i ≤ n →
      Ev.evaled j ∈ (schedule entry env scripts texts i st).1.trace →
      Ev.evaled j ∈ st.trace ∨
      (∃ sj, scripts[j]? = some sj ∧ isEntryScript entry sj = true) ∨
      (∃ c, texts[j]? = some (.text c)) by
    intro i st j
    exact H (scripts.length - i) i st j le_rfl
  intro n
  induction n with
  | zero =>
    intro i st j hle hev
    rw [schedule_stop entry env scripts texts i st (by omega)] at hev
    exact Or.inl hev
  | succ n ih =>
    intro i st j hle hev
    by_cases h : i < scripts.length
    · have hsc : scripts[i]? = some scripts[i] := List.getElem?_eq_getElem h
      cases ht : texts[i]? with
      | none =>
        rw [schedule_stop_texts entry env scripts texts i st h ht] at hev
        exact Or.inl hev
      | some tx =>
        have hsrc : Ev.evaled j ∈ (exec entry env (scripts[i]) tx i st).1.trace →
            Ev.evaled j ∈ st.trace ∨
            (∃ sj, scripts[j]? = some sj ∧ isEntryScript entry sj = true) ∨
            (∃ c, texts[j]? = some (.text c)) := by
          intro hev'
          rcases exec_evaled_src entry env (scripts[i]) tx i st j hev' with hin | ⟨rfl, hsub⟩
          · exact Or.inl hin
          · rcases hsub with hent | ⟨c, rfl⟩
            · exact Or.inr (Or.inl ⟨scripts[j], hsc, hent⟩)
            · exact Or.inr (Or.inr ⟨c, ht⟩)
        rcases hex : exec entry env (scripts[i]) tx i st with ⟨st', err⟩
        cases err with
        | some e =>
          rw [schedule_step_err entry env scripts texts i st st' _ _ e h hsc ht hex] at hev
          exact hsrc (by rw [hex]; exact hev)
        | none =>
          rw [schedule_step_ok entry env scripts texts i st st' _ _ h hsc ht hex] at hev
          by_cases hc : (!(entryTruthy entry) && i == scripts.length - 1) = true
          · rw [if_pos hc] at hev
            exact hsrc (by rw [hex]; exact hev)
          · rw [if_neg hc] at hev
            rcases ih (i + 1) st' j (by omega) hev with hin | hrest
            · exact hsrc (by rw [hex]; exact hin)
            · exact Or.inr hrest
    · rw [schedule_stop entry env scripts texts i st h] at hev
      exact Or.inl hev

/-! ## Shape of the resolved `scriptsText` array -/

theorem resolveScript_ok_shape (f : String → Except Err String) (a : Script)
    (st st' : CacheSt) (t : ScriptText) (h : resolveScript f a st = (.ok t, st')) :
    ShapeOk a t := by
  cases a with
  | str s =>
    simp only [resolveScript] at h
    by_cases hin : isInlineCode s = true
    · rw [if_pos hin] at h
      have ht : ScriptText.text (getInlineCode s) = t :=
        Except.ok.inj (congrArg Prod.fst h)
      rw [← ht]
      trivial
    · rw [if_neg hin] at h
      rcases hfs : fetchScript f s st with ⟨r, st2⟩
      rw [hfs] at h
      cases r with
      | error e => exact absurd (congrArg Prod.fst h) (by simp [Except.map])
      | ok c =>
        have ht : ScriptText.text c = t := by
          have := congrArg Prod.fst h
          simpa [Except.map] using this
        rw [← ht]
        trivial
  | obj src asy cros =>
    cases asy with
    | true =>
      simp only [resolveScript, if_true] at h
      have ht : ScriptText.asyncHandle src = t := Except.ok.inj (congrArg Prod.fst h)
      rw [← ht]
      rfl
    | false =>
      simp only [resolveScript, Bool.false_eq_true, if_false] at h
      rcases hfs : fetchScript f src st with ⟨r, st2⟩
      rw [hfs] at h
      cases r with
      | error e => exact absurd (congrArg Prod.fst h) (by simp [Except.map])
      | ok c =>
        have ht : ScriptText.text c = t := by
          have := congrArg Prod.fst h
          simpa [Except.map] using this
        rw [← ht]
        trivial

theorem getScripts_spec (f : String → Except Err String) :
    ∀ (scripts : List Script) (st : CacheSt) (texts : List ScriptText) (st' : CacheSt),
      getExternalScriptsM f scripts st = (.ok texts, st') →
      texts.length = scripts.length ∧
      ∀ (j : Nat) (sj : Script), scripts[j]? = some sj →
        ∃ t, texts[j]? = some t ∧ ShapeOk sj t := by
  intro scripts
  induction scripts with
  | nil =>
    intro st texts st' h
    simp only [getExternalScriptsM, mapState, collectAll] at h
    have htexts : ([] : List ScriptText) = texts := Except.ok.inj (congrArg Prod.fst h)
    subst htexts
    refine ⟨rfl, ?_⟩
    intro j sj hsj
    simp at hsj
  | cons a as ihas =>
    intro st texts st' h
    simp only [getExternalScriptsM, mapState] at h
    rcases hA : resolveScript f a st with ⟨b, stA⟩
    rw [hA] at h
    rcases hB : mapState (resolveScript f) as stA with ⟨bs, stB⟩
    rw [hB] at h
    cases b with
    | error e =>
      rw [collectAll] at h
      exact absurd (congrArg Prod.fst h) (by simp)
    | ok tb =>
      rw [collectAll] at h
      cases hbs : collectAll bs with
      | error e =>
        rw [hbs] at h
        exact absurd (congrArg Prod.fst h) (by simp [Except.map])
      | ok tbs =>
        rw [hbs] at h
        have htexts : tb :: tbs = texts := by
          have := congrArg Prod.fst h
          simpa [Except.map] using this
        subst htexts
        have hrec : getExternalScriptsM f as stA = (.ok tbs, stB) := by
          simp only [getExternalScriptsM]
          rw [hB, hbs]
        obtain ⟨hlen, hshape⟩ := ihas stA tbs stB hrec
        refine ⟨by simp [hlen], ?_⟩
        intro j sj hsj
        cases j with
        | zero =>
          have hsa : a = sj := by simpa using hsj
          refine ⟨tb, by simp, ?_⟩
          exact hsa ▸ resolveScript_ok_shape f a st stA tb hA
        | succ m =>
          rw [List.getElem?_cons_succ] at hsj
          obtain ⟨t, ht, hsh⟩ := hshape m sj hsj
          exact ⟨t, by rw [List.getElem?_cons_succ]; exact ht, hsh⟩

theorem ShapeOk_str (s : String) (t : ScriptText) (h : ShapeOk (.str s) t) :
    ∃ c, t = .text c := by
  cases t with
  | text c => exact ⟨c, rfl⟩
  | asyncHandle s0 => exact absurd h (by simp [ShapeOk])

theorem ShapeOk_async (src : String) (co : Bool) (t : ScriptText)
    (h : ShapeOk (.obj src true co) t) : t = .asyncHandle src := by
  cases t with
  | text c => exact absurd h (by simp [ShapeOk])
  | asyncHandle s0 =>
    have : s0 = src := h
    rw [this]

theorem ShapeOk_async_script (sj : Script) (s' : String) (h : ShapeOk sj (.asyncHandle s')) :
    ∃ co, sj = .obj s' true co := by
  cases sj with
  | str s => exact absurd h (by simp [ShapeOk])
  | obj src asy co =>
    cases asy with
    | true =>
      have : s' = src := h
      exact ⟨co, by rw [this]⟩
    | false => exact absurd h (by simp [ShapeOk])

theorem isEntryScript_obj (entry : Option String) (src : String) (a co : Bool) :
    isEntryScript entry (.obj src a co) = false := by
  cases entry <;> rfl

theorem isEntry_is_str (entry : Option String) (sj : Script)
    (h : isEntryScript entry sj = true) : ∃ s, sj = .str s := by
  cases sj with
  | str s => exact ⟨s, rfl⟩
  | obj src a co => rw [isEntryScript_obj] at h; exact absurd h (by simp)

/-! ## The caches fetch each location at most once -/

theorem fetchScript_hit (f : String → Except Err String) (L : String) (st : CacheSt)
    (r : Except Err String) (h : st.scriptCache.lookup L = some r) :
    fetchScript f L st = (r, st) := by
  unfold fetchScript
  rw [h]

theorem fetchStyle_hit (f : String → Except Err String) (L : String) (st : CacheSt)
    (r : Except Err String) (h : st.styleCache.lookup L = some r) :
    fetchStyle f L st = (r, st) := by
  unfold fetchStyle
  rw [h]

theorem cacheInv_script_update (st : CacheSt) (u : String) (p : Except Err String)
    (el : List String) (hinv : CacheInv st) (hmiss : st.scriptCache.lookup u = none) :
    CacheInv { st with scriptCache := (u, p) :: st.scriptCache,
                       scriptFetchLog := st.scriptFetchLog ++ [u], errorLog := el } := by
  intro L
  obtain ⟨h1, h2, h3, h4⟩ := hinv L
  refine ⟨h1, h2, ?_, ?_⟩
  · by_cases hLu : L = u
    · subst hLu
      have hnot : L ∉ st.scriptFetchLog := by
        intro hmem
        have hsome := h4.mpr hmem
        rw [hmiss] at hsome
        simp at hsome
      have hz : st.scriptFetchLog.count L = 0 := List.count_eq_zero.mpr hnot
      simp [List.count_append, hz]
    · have hz : List.count L [u] = 0 := by
        simp [List.count_cons]
        intro hc
        exact absurd hc.symm hLu
      simp only [List.count_append, hz]
      omega
  · by_cases hLu : L = u
    · subst hLu
      constructor
      · intro _
        simp
      · intro _
        simp [List.lookup]
    · constructor
      · intro hsome
        simp only [List.lookup] at hsome
        rw [show (L == u) = false from beq_eq_false_iff_ne.mpr hLu] at hsome
        have := h4.mp hsome
        simp [this]
      · intro hmem
        simp only [List.mem_append, List.mem_singleton] at hmem
        rcases hmem with hmem | hmem
        · have := h4.mpr hmem
          simp only [List.lookup]
          rw [show (L == u) = false from beq_eq_false_iff_ne.mpr hLu]
          exact this
        · exact absurd hmem hLu

theorem cacheInv_style_update (st : CacheSt) (u : String) (p : Except Err String)
    (hinv : CacheInv st) (hmiss : st.styleCache.lookup u = none) :
    CacheInv { st with styleCache := (u, p) :: st.styleCache,
                       styleFetchLog := st.styleFetchLog ++ [u] } := by
  intro L
  obtain ⟨h1, h2, h3, h4⟩ := hinv L
  refine ⟨?_, ?_, h3, h4⟩
  · by_cases hLu : L = u
    · subst hLu
      have hnot : L ∉ st.styleFetchLog := by
        intro hmem
        have hsome := h2.mpr hmem
        rw [hmiss] at hsome
        simp at hsome
      have hz : st.styleFetchLog.count L = 0 := List.count_eq_zero.mpr hnot
      simp [List.count_append, hz]
    · have hz : List.count L [u] = 0 := by
        simp [List.count_cons]
        intro hc
        exact absurd hc.symm hLu
      simp only [List.count_append, hz]
      omega
  · by_cases hLu : L = u
    · subst hLu
      constructor
      · intro _
        simp
      · intro _
        simp [List.lookup]
    · constructor
      · intro hsome
        simp only [List.lookup] at hsome
        rw [show (L == u) = false from beq_eq_false_iff_ne.mpr hLu] at hsome
        have := h2.mp hsome
        simp [this]
      · intro hmem
        simp only [List.mem_append, List.mem_singleton] at hmem
        rcases hmem with hmem | hmem
        · have := h2.mpr hmem
          simp only [List.lookup]
          rw [show (L == u) = false from beq_eq_false_iff_ne.mpr hLu]
          exact this
        · exact absurd hmem hLu

theorem fetchScript_inv (f : String → Except Err String) (u : String) (st : CacheSt)
    (hinv : CacheInv st) : CacheInv (fetchScript f u st).2 := by
  unfold fetchScript
  cases hl : st.scriptCache.lookup u with
  | some cached => exact hinv
  | none =>
    cases hp : f u with
    | error e =>
      simp only [hp]
      exact cacheInv_script_update st u (.error e) _ hinv hl
    | ok s =>
      simp only [hp]
      exact cacheInv_script_update st u (.ok s) _ hinv hl

theorem fetchStyle_inv (f : String → Except Err String) (u : String) (st : CacheSt)
    (hinv : CacheInv st) : CacheInv (fetchStyle f u st).2 := by
  unfold fetchStyle
  cases hl : st.styleCache.lookup u with
  | some cached => exact hinv
  | none => exact cacheInv_style_update st u (f u) hinv hl

theorem resolveStyle_inv (f : String → Except Err String) (s : String) (st : CacheSt)
    (hinv : CacheInv st) : CacheInv (resolveStyle f s st).2 := by
  unfold resolveStyle
  by_cases hin : isInlineCode s = true
  · rw [if_pos hin]
    exact hinv
  · rw [if_neg hin]
    exact fetchStyle_inv f s st hinv

theorem resolveScript_inv (f : String → Except Err String) (a : Script) (st : CacheSt)
    (hinv : CacheInv st) : CacheInv (resolveScript f a st).2 := by
  cases a with
  | str s =>
    simp only [resolveScript]
    by_cases hin : isInlineCode s = true
    · rw [if_pos hin]
      exact hinv
    · rw [if_neg hin]
      rcases hfs : fetchScript f s st with ⟨r, st2⟩
      have := fetchScript_inv f s st hinv
      rw [hfs] at this
      exact this
  | obj src asy co =>
    cases asy with
    | true => exact hinv
    | false =>
      simp only [resolveScript, Bool.false_eq_true, if_false]
      rcases hfs : fetchScript f src st with ⟨r, st2⟩
      have := fetchScript_inv f src st hinv
      rw [hfs] at this
      exact this

theorem mapState_inv {α β : Type} (f : α → CacheSt → β × CacheSt)
    (hf : ∀ a st, CacheInv st → CacheInv (f a st).2) :
    ∀ (l : List α) (st : CacheSt), CacheInv st → CacheInv (mapState f l st).2 := by
  intro l
  induction l with
  | nil =>
    intro st h
    exact h
  | cons a as iha =>
    intro st h
    simp only [mapState]
    rcases hA : f a st with ⟨b, stA⟩
    rcases hB : mapState f as stA with ⟨bs, stB⟩
    have hin : CacheInv stA := by
      have := hf a st h
      rw [hA] at this
      exact this
    have := iha stA hin
    rw [hB] at this
    exact this

theorem getStyles_inv (f : String → Except Err String) (styles : List String) (st : CacheSt)
    (hinv : CacheInv st) : CacheInv (getExternalStyleSheetsM f styles st).2 := by
  unfold getExternalStyleSheetsM
  rcases hM : mapState (resolveStyle f) styles st with ⟨rs, st'⟩
  have := mapState_inv (resolveStyle f) (fun a s hs => resolveStyle_inv f a s hs) styles st hinv
  rw [hM] at this
  exact this

theorem getScripts_inv (f : String → Except Err String) (scripts : List Script) (st : CacheSt)
    (hinv : CacheInv st) : CacheInv (getExternalScriptsM f scripts st).2 := by
  unfold getExternalScriptsM
  rcases hM : mapState (resolveScript f) scripts st with ⟨rs, st'⟩
  have := mapState_inv (resolveScript f) (fun a s hs => resolveScript_inv f a s hs) scripts st hinv
  rw [hM] at this
  exact this

theorem runOp_inv (op : ResourceOp) (st : CacheSt) (hinv : CacheInv st) :
    CacheInv (runOp op st) := by
  cases op with
  | styleReq f styles => exact getStyles_inv f styles st hinv
  | scriptReq f scripts => exact getScripts_inv f scripts st hinv
  | idleReq f src => exact fetchScript_inv f src st hinv

theorem runOps_inv (ops : List ResourceOp) :
    ∀ st : CacheSt, CacheInv st → CacheInv (runOps ops st) := by
  induction ops with
  | nil =>
    intro st h
    exact h
  | cons op rest ihr =>
    intro st h
    exact ihr (runOp op st) (runOp_inv op st h)

theorem emptyCache_inv : CacheInv emptyCache := by
  intro L
  refine ⟨?_, ?_, ?_, ?_⟩ <;> simp [emptyCache]

/-! ## Behaviour of the deferred async chain -/

theorem runAsyncScript_no_throw (env' : EvalEnv) (f' : String → Except Err String)
    (src : String) (k : Nat) (cst : CacheSt) (sst : SchedSt) :
    (runAsyncScript env' f' src k cst sst).2.2 = none := by
  unfold runAsyncScript geval
  rcases hfs : fetchScript f' src cst with ⟨content, cs2⟩
  cases content with
  | ok t =>
    cases henv : env'.evalThrows k <;> rfl
  | error e => rfl

theorem runAsyncScript_throw_reported (env' : EvalEnv) (f' : String → Except Err String)
    (src : String) (k : Nat) (cst : CacheSt) (sst : SchedSt) (txt : String) (e2 : Err)
    (hok : (fetchScript f' src cst).1 = .ok txt) (hth : env'.evalThrows k = some e2) :
    Ev.deferredErr k ∈ (runAsyncScript env' f' src k cst sst).2.1.trace := by
  unfold runAsyncScript geval
  rcases hfs : fetchScript f' src cst with ⟨content, cs2⟩
  rw [hfs] at hok
  have hcontent : content = .ok txt := hok
  subst hcontent
  rw [hth]
  simp [record]

theorem runAsyncScript_cache (env' : EvalEnv) (f' : String → Except Err String)
    (src : String) (k : Nat) (cst : CacheSt) (sst : SchedSt) :
    (runAsyncScript env' f' src k cst sst).1 = (fetchScript f' src cst).2 := by
  unfold runAsyncScript geval
  rcases hfs : fetchScript f' src cst with ⟨content, cs2⟩
  cases content with
  | ok t =>
    cases henv : env'.evalThrows k <;> rfl
  | error e => rfl

theorem fetchScript_miss_log (f : String → Except Err String) (u : String) (st : CacheSt)
    (hmiss : st.scriptCache.lookup u = none) :
    (fetchScript f u st).2.scriptFetchLog = st.scriptFetchLog ++ [u] := by
  unfold fetchScript
  rw [hmiss]
  cases hfu : f u <;> simp [hfu]

/-! ## The claims -/

/-- Claim C1: for every script list with an entry identifier, if executing the
entry script at index `i` throws, the promise returned by `execScripts`
rejects with that exception, and no script at any index greater than `i` is
issued or executed — scheduling issues and executes one index at a time and
halts on a fatal entry error. -/
theorem execScripts_entry_throw_halts (entry : Option String) (env : EvalEnv)
    (scripts : List Script) (fetchF : String → Except Err String) (st0 st1 : CacheSt)
    (texts : List ScriptText) (i : Nat) (si : Script) (e : Err)
    (hres : getExternalScriptsM fetchF scripts st0 = (.ok texts, st1))
    (htr : entryTruthy entry = true)
    (hi : scripts[i]? = some si)
    (hie : isEntryScript entry si = true)
    (hpre : ∀ (j : Nat) (sj : Script), j < i → scripts[j]? = some sj →
      isEntryScript entry sj = false)
    (hth : env.evalThrows i = some e) :
    (execScriptsModel entry env scripts fetchF st0).1 = .rejected e ∧
    (∀ j : Nat, i < j →
      Ev.issued j ∉ (execScriptsModel entry env scripts fetchF st0).2.1.trace ∧
      Ev.evaled j ∉ (execScriptsModel entry env scripts fetchF st0).2.1.trace) := by
  obtain ⟨hlen, _⟩ := getScripts_spec fetchF scripts st0 texts st1 hres
  obtain ⟨herr, hcalls, htrace⟩ :=
    sched_halt entry env scripts texts htr hlen i si e hi hie hth 0 emptySched
      (Nat.zero_le i) (fun j sj _ hjlt hjs => hpre j sj hjlt hjs)
  have hmodel : execScriptsModel entry env scripts fetchF st0 =
      (outcome env.hasSuccess (schedule entry env scripts texts 0 emptySched).1
        (schedule entry env scripts texts 0 emptySched).2,
       (schedule entry env scripts texts 0 emptySched).1, st1) := by
    unfold execScriptsModel
    rw [hres]
  rcases hr : schedule entry env scripts texts 0 emptySched with ⟨sst, errv⟩
  rw [hr] at hmodel herr hcalls htrace
  have herr2 : errv = some e := herr
  subst herr2
  rw [hmodel]
  have hcalls2 : sst.resolveCalls = [] := hcalls
  have htrace2 : ∀ ev, ev ∈ sst.trace → ev ∈ ([] : List Ev) ∨ ev.idx ≤ i := htrace
  constructor
  · show outcome env.hasSuccess sst (some e) = .rejected e
    unfold outcome
    cases env.hasSuccess with
    | false => simp [hcalls2]
    | true => rfl
  · intro j hij
    constructor
    · intro hmem
      have hm : Ev.issued j ∈ sst.trace := hmem
      rcases htrace2 _ hm with hin | hidx
      · simp at hin
      · simp only [Ev.idx] at hidx
        omega
    · intro hmem
      have hm : Ev.evaled j ∈ sst.trace := hmem
      rcases htrace2 _ hm with hin | hidx
      · simp at hin
      · simp only [Ev.idx] at hidx
        omega

theorem execScripts_entry_throw_halts_witness :
    (execScriptsModel (some "http://x/e.js")
        ⟨fun n => if n == 1 then some "boom" else none, some "exp", [], false⟩
        [Script.str "http://x/a.js", Script.str "http://x/e.js"]
        (fun _ => .ok "code") emptyCache).1 = .rejected "boom" ∧
    Ev.issued 2 ∉ (execScriptsModel (some "http://x/e.js")
        ⟨fun n => if n == 1 then some "boom" else none, some "exp", [], false⟩
        [Script.str "http://x/a.js", Script.str "http://x/e.js"]
        (fun _ => .ok "code") emptyCache).2.1.trace := by
  have happ := execScripts_entry_throw_halts (some "http://x/e.js")
    ⟨fun n => if n == 1 then some "boom" else none, some "exp", [], false⟩
    [Script.str "http://x/a.js", Script.str "http://x/e.js"]
    (fun _ => .ok "code") emptyCache
    ⟨[], [("http://x/e.js", .ok "code"), ("http://x/a.js", .ok "code")], [],
      ["http://x/a.js", "http://x/e.js"], []⟩
    [.text "code", .text "code"] 1 (Script.str "http://x/e.js") "boom"
    rfl rfl rfl rfl
    (by
      intro j sj hj hjs
      have hj0 : j = 0 := by omega
      subst hj0
      have hsj : Script.str "http://x/a.js" = sj := by simpa using hjs
      rw [← hsj]
      rfl)
    rfl
  exact ⟨happ.1, (happ.2 2 (by omega)).1⟩

/-- Claim C2: a non-entry script (synchronous or async) whose execution throws
is caught and reported via the deferred next-turn re-throw: the promise
returned by `execScripts` does not reject (it still resolves, provided the
entry itself — if any — runs cleanly), the script at the next index is still
issued and executed, and the async chain likewise never propagates an
exception out of its `catch`. -/
theorem execScripts_nonentry_throw_isolated (entry : Option String) (env : EvalEnv)
    (scripts : List Script) (fetchF : String → Except Err String) (st0 st1 : CacheSt)
    (texts : List ScriptText) (i : Nat) (si : Script) (c : String) (e : Err)
    (hres : getExternalScriptsM fetchF scripts st0 = (.ok texts, st1))
    (hok : ∀ (j : Nat) (sj : Script), scripts[j]? = some sj → isEntryScript entry sj = true →
      env.evalThrows j = none)
    (hsi : scripts[i]? = some si)
    (hne : isEntryScript entry si = false)
    (hti : texts[i]? = some (.text c))
    (hth : env.evalThrows i = some e)
    (hnext : i + 1 < scripts.length)
    (hnosucc : env.hasSuccess = false)
    (hresolve : entry = none ∨ (entryTruthy entry = true ∧
      ∃ (k : Nat) (sk : Script), scripts[k]? = some sk ∧ isEntryScript entry sk = true)) :
    (∃ v, (execScriptsModel entry env scripts fetchF st0).1 = .resolved v) ∧
    Ev.deferredErr i ∈ (execScriptsModel entry env scripts fetchF st0).2.1.trace ∧
    Ev.issued (i + 1) ∈ (execScriptsModel entry env scripts fetchF st0).2.1.trace ∧
    (∀ c', texts[i + 1]? = some (.text c') →
      Ev.evaled (i + 1) ∈ (execScriptsModel entry env scripts fetchF st0).2.1.trace) ∧
    (∀ (env' : EvalEnv) (f' : String → Except Err String) (src : String) (k : Nat)
      (cst : CacheSt) (sst : SchedSt),
      (runAsyncScript env' f' src k cst sst).2.2 = none) ∧
    (∀ (env' : EvalEnv) (f' : String → Except Err String) (src : String) (k : Nat)
      (cst : CacheSt) (sst : SchedSt) (txt : String) (e2 : Err),
      (fetchScript f' src cst).1 = .ok txt → env'.evalThrows k = some e2 →
      Ev.deferredErr k ∈ (runAsyncScript env' f' src k cst sst).2.1.trace) := by
  obtain ⟨hlen, hshapes⟩ := getScripts_spec fetchF scripts st0 texts st1 hres
  have hshape : ∀ (j : Nat) (s' : String) (sj : Script),
      texts[j]? = some (.asyncHandle s') → scripts[j]? = some sj →
      isEntryScript entry sj = false := by
    intro j s' sj hjt hjs
    obtain ⟨t, ht', hsh⟩ := hshapes j sj hjs
    rw [ht'] at hjt
    have htt : t = .asyncHandle s' := Option.some.inj hjt
    subst htt
    obtain ⟨co, rfl⟩ := ShapeOk_async_script sj s' hsh
    exact isEntryScript_obj entry s' true co
  obtain ⟨herr, hmono, hiss, hev, hdef, hasy⟩ :=
    sched_run entry env scripts texts hlen hok hshape 0 emptySched
  have hhead : ∃ v, (schedule entry env scripts texts 0 emptySched).1.resolveCalls.head?
      = some v := by
    rcases hresolve with rfl | ⟨htr, k, sk, hk, hek⟩
    · obtain ⟨_, hcalls0⟩ :=
        sched_calls_entry_none env scripts texts hlen 0 emptySched (by omega)
      rw [hcalls0]
      exact ⟨JsVal.undefinedV, rfl⟩
    · have hP : ∃ (n : Nat), ∃ (sn : Script), scripts[n]? = some sn ∧
          isEntryScript entry sn = true := ⟨k, sk, hk, hek⟩
      haveI : DecidablePred fun n : Nat => ∃ (sn : Script), scripts[n]? = some sn ∧
          isEntryScript entry sn = true := Classical.decPred _
      obtain ⟨sk0, hk0, hek0⟩ := Nat.find_spec hP
      have hkok0 : env.evalThrows (Nat.find hP) = none := hok _ _ hk0 hek0
      obtain ⟨rest, hrest⟩ := sched_first_entry entry env scripts texts htr hlen
        (Nat.find hP) sk0 hk0 hek0 hkok0 0 emptySched (Nat.zero_le _)
        (fun j sj _ hjlt hjs => by
          by_contra hcon
          have hb : isEntryScript entry sj = true := by
            revert hcon
            cases isEntryScript entry sj <;> simp
          exact Nat.find_min hP hjlt ⟨sj, hjs, hb⟩)
      rw [hrest]
      exact ⟨exportsValue env, rfl⟩
  have hmodel : execScriptsModel entry env scripts fetchF st0 =
      (outcome env.hasSuccess (schedule entry env scripts texts 0 emptySched).1
        (schedule entry env scripts texts 0 emptySched).2,
       (schedule entry env scripts texts 0 emptySched).1, st1) := by
    unfold execScriptsModel
    rw [hres]
  rcases hr : schedule entry env scripts texts 0 emptySched with ⟨sst, errv⟩
  rw [hr] at hmodel herr hiss hev hdef hhead
  rw [hmodel]
  refine ⟨?_, ?_, ?_, ?_, ?_, ?_⟩
  · obtain ⟨v, hv⟩ := hhead
    refine ⟨v, ?_⟩
    show outcome env.hasSuccess sst errv = .resolved v
    unfold outcome
    rw [hnosucc]
    have hv2 : sst.resolveCalls.head? = some v := hv
    simp [hv2]
  · exact hdef i c si e (Nat.zero_le i) hti hsi hne hth
  · exact hiss (i + 1) (Nat.zero_le _) hnext
  · intro c' htc'
    exact hev (i + 1) c' (Nat.zero_le _) htc'
  · intro env' f' src k cst sst'
    exact runAsyncScript_no_throw env' f' src k cst sst'
  · intro env' f' src k cst sst' txt e2 hfok hthk
    exact runAsyncScript_throw_reported env' f' src k cst sst' txt e2 hfok hthk

theorem execScripts_nonentry_throw_isolated_witness :
    (∃ v, (execScriptsModel none
        ⟨fun n => if n == 0 then some "bad" else none, none, [], false⟩
        [Script.str "http://x/a.js", Script.str "http://x/b.js"]
        (fun _ => .ok "code") emptyCache).1 = .resolved v) ∧
    Ev.deferredErr 0 ∈ (execScriptsModel none
        ⟨fun n => if n == 0 then some "bad" else none, none, [], false⟩
        [Script.str "http://x/a.js", Script.str "http://x/b.js"]
        (fun _ => .ok "code") emptyCache).2.1.trace ∧
    Ev.issued 1 ∈ (execScriptsModel none
        ⟨fun n => if n == 0 then some "bad" else none, none, [], false⟩
        [Script.str "http://x/a.js", Script.str "http://x/b.js"]
        (fun _ => .ok "code") emptyCache).2.1.trace := by
  have happ := execScripts_nonentry_throw_isolated none
    ⟨fun n => if n == 0 then some "bad" else none, none, [], false⟩
    [Script.str "http://x/a.js", Script.str "http://x/b.js"]
    (fun _ => .ok "code") emptyCache
    ⟨[], [("http://x/b.js", .ok "code"), ("http://x/a.js", .ok "code")], [],
      ["http://x/a.js", "http://x/b.js"], []⟩
    [.text "code", .text "code"] 0 (Script.str "http://x/a.js") "code" "bad"
    rfl
    (by
      intro j sj hjs hent
      rw [isEntryScript_none] at hent
      exact absurd hent (by simp))
    rfl rfl rfl rfl (by decide) rfl (Or.inl rfl)
  exact ⟨happ.1, happ.2.1, happ.2.2.1⟩

/-- Claim C3: over any sequence of style/script resolution operations (and
idle-time async fetches) in one process, each location is fetched at most
once per cache; and a cache hit returns the stored settled promise
unconditionally with the state untouched — in particular a failed fetch is
never retried. -/
theorem cache_fetch_at_most_once (ops : List ResourceOp) (L : String) :
    ((runOps ops emptyCache).styleFetchLog.count L ≤ 1 ∧
     (runOps ops emptyCache).scriptFetchLog.count L ≤ 1) ∧
    (∀ (f : String → Except Err String) (st : CacheSt) (r : Except Err String),
      st.scriptCache.lookup L = some r → fetchScript f L st = (r, st)) ∧
    (∀ (f : String → Except Err String) (st : CacheSt) (r : Except Err String),
      st.styleCache.lookup L = some r → fetchStyle f L st = (r, st)) := by
  refine ⟨?_, fun f st r h => fetchScript_hit f L st r h,
    fun f st r h => fetchStyle_hit f L st r h⟩
  have hinv := runOps_inv ops emptyCache emptyCache_inv
  obtain ⟨h1, _, h3, _⟩ := hinv L
  exact ⟨h1, h3⟩

theorem cache_fetch_at_most_once_witness :
    ((runOps [ResourceOp.scriptReq (fun _ => .error "netfail") [Script.str "http://x/u.js"],
              ResourceOp.scriptReq (fun _ => .error "netfail") [Script.str "http://x/u.js"],
              ResourceOp.styleReq (fun _ => .error "netfail")
                ["http://x/u.css", "http://x/u.css"]] emptyCache).styleFetchLog.count
        "http://x/u.js" ≤ 1 ∧
     (runOps [ResourceOp.scriptReq (fun _ => .error "netfail") [Script.str "http://x/u.js"],
              ResourceOp.scriptReq (fun _ => .error "netfail") [Script.str "http://x/u.js"],
              ResourceOp.styleReq (fun _ => .error "netfail")
                ["http://x/u.css", "http://x/u.css"]] emptyCache).scriptFetchLog.count
        "http://x/u.js" ≤ 1) ∧
    fetchScript (fun _ => .ok "fresh") "http://x/u.js"
        ⟨[], [("http://x/u.js", .error "netfail")], [], ["http://x/u.js"], ["http://x/u.js"]⟩
      = (.error "netfail",
         ⟨[], [("http://x/u.js", .error "netfail")], [], ["http://x/u.js"], ["http://x/u.js"]⟩) := by
  refine ⟨(cache_fetch_at_most_once
    [ResourceOp.scriptReq (fun _ => .error "netfail") [Script.str "http://x/u.js"],
     ResourceOp.scriptReq (fun _ => .error "netfail") [Script.str "http://x/u.js"],
     ResourceOp.styleReq (fun _ => .error "netfail") ["http://x/u.css", "http://x/u.css"]]
    "http://x/u.js").1, ?_⟩
  exact (cache_fetch_at_most_once
    [ResourceOp.scriptReq (fun _ => .error "netfail") [Script.str "http://x/u.js"],
     ResourceOp.scriptReq (fun _ => .error "netfail") [Script.str "http://x/u.js"],
     ResourceOp.styleReq (fun _ => .error "netfail") ["http://x/u.css", "http://x/u.css"]]
    "http://x/u.js").2.1 (fun _ => .ok "fresh")
    ⟨[], [("http://x/u.js", .error "netfail")], [], ["http://x/u.js"], ["http://x/u.js"]⟩
    (.error "netfail") rfl

/-- Claim C4: an async-flagged remote script descriptor resolves immediately
to the handle `\x7bsrc, async: true, content\x7d` without invoking the fetch
capability in the caller's call stack (the fetch happens in the idle-time
chain instead), and during execution the scheduler does not wait on the
handle: it attaches the continuation, immediately issues index `i + 1`, and
never runs the async script's code in the synchronous pass. -/
theorem async_script_non_blocking (entry : Option String) (env : EvalEnv)
    (scripts : List Script) (fetchF : String → Except Err String) (st0 st1 : CacheSt)
    (texts : List ScriptText) (i : Nat) (src : String) (co : Bool)
    (hres : getExternalScriptsM fetchF scripts st0 = (.ok texts, st1))
    (hok : ∀ (j : Nat) (sj : Script), scripts[j]? = some sj → isEntryScript entry sj = true →
      env.evalThrows j = none)
    (hsi : scripts[i]? = some (.obj src true co))
    (hnext : i + 1 < scripts.length) :
    (∀ (f' : String → Except Err String) (c' : Bool) (st' : CacheSt),
      resolveScript f' (.obj src true c') st' = (.ok (.asyncHandle src), st')) ∧
    (∀ (f' : String → Except Err String) (st' : CacheSt) (sst : SchedSt),
      st'.scriptCache.lookup src = none →
      (runAsyncScript env f' src i st' sst).1.scriptFetchLog
        = st'.scriptFetchLog ++ [src]) ∧
    Ev.asyncAttached i ∈ (execScriptsModel entry env scripts fetchF st0).2.1.trace ∧
    Ev.issued (i + 1) ∈ (execScriptsModel entry env scripts fetchF st0).2.1.trace ∧
    Ev.evaled i ∉ (execScriptsModel entry env scripts fetchF st0).2.1.trace := by
  obtain ⟨hlen, hshapes⟩ := getScripts_spec fetchF scripts st0 texts st1 hres
  have hti : texts[i]? = some (.asyncHandle src) := by
    obtain ⟨t, ht', hsh⟩ := hshapes i _ hsi
    rw [ShapeOk_async src co t hsh] at ht'
    exact ht'
  have hshape : ∀ (j : Nat) (s' : String) (sj : Script),
      texts[j]? = some (.asyncHandle s') → scripts[j]? = some sj →
      isEntryScript entry sj = false := by
    intro j s' sj hjt hjs
    obtain ⟨t, ht', hsh⟩ := hshapes j sj hjs
    rw [ht'] at hjt
    have htt : t = .asyncHandle s' := Option.some.inj hjt
    subst htt
    obtain ⟨co', rfl⟩ := ShapeOk_async_script sj s' hsh
    exact isEntryScript_obj entry s' true co'
  obtain ⟨herr, hmono, hiss, hev, hdef, hasy⟩ :=
    sched_run entry env scripts texts hlen hok hshape 0 emptySched
  have hmodel : execScriptsModel entry env scripts fetchF st0 =
      (outcome env.hasSuccess (schedule entry env scripts texts 0 emptySched).1
        (schedule entry env scripts texts 0 emptySched).2,
       (schedule entry env scripts texts 0 emptySched).1, st1) := by
    unfold execScriptsModel
    rw [hres]
  refine ⟨?_, ?_, ?_, ?_, ?_⟩
  · intro f' c' st'
    rfl
  · intro f' st' sst hmiss
    rw [runAsyncScript_cache]
    exact fetchScript_miss_log f' src st' hmiss
  · rw [hmodel]
    exact hasy i src (Nat.zero_le i) hti
  · rw [hmodel]
    exact hiss (i + 1) (Nat.zero_le _) hnext
  · rw [hmodel]
    intro hmem
    rcases sched_evaled_src entry env scripts texts 0 emptySched i hmem with hin | hent | htext
    · simp [emptySched] at hin
    · obtain ⟨sj, hjs, hent'⟩ := hent
      have : Script.obj src true co = sj := Option.some.inj (hsi ▸ hjs)
      rw [← this] at hent'
      rw [isEntryScript_obj] at hent'
      exact absurd hent' (by simp)
    · obtain ⟨c, hc⟩ := htext
      rw [hti] at hc
      exact absurd (Option.some.inj hc) (by simp)

theorem async_script_non_blocking_witness :
    Ev.asyncAttached 0 ∈ (execScriptsModel none
        ⟨fun _ => none, none, [], false⟩
        [Script.obj "http://x/async.js" true false, Script.str "http://x/b.js"]
        (fun _ => .ok "code") emptyCache).2.1.trace ∧
    Ev.issued 1 ∈ (execScriptsModel none
        ⟨fun _ => none, none, [], false⟩
        [Script.obj "http://x/async.js" true false, Script.str "http://x/b.js"]
        (fun _ => .ok "code") emptyCache).2.1.trace ∧
    Ev.evaled 0 ∉ (execScriptsModel none
        ⟨fun _ => none, none, [], false⟩
        [Script.obj "http://x/async.js" true false, Script.str "http://x/b.js"]
        (fun _ => .ok "code") emptyCache).2.1.trace := by
  have happ := async_script_non_blocking none ⟨fun _ => none, none, [], false⟩
    [Script.obj "http://x/async.js" true false, Script.str "http://x/b.js"]
    (fun _ => .ok "code") emptyCache
    ⟨[], [("http://x/b.js", .ok "code")], [], ["http://x/b.js"], []⟩
    [.asyncHandle "http://x/async.js", .text "code"] 0 "http://x/async.js" false
    rfl
    (fun j sj hjs hent => rfl)
    rfl (by decide)
  exact ⟨happ.2.2.1, happ.2.2.2.1, happ.2.2.2.2⟩

/-- Claim C5: the facade handle's `execScripts` with an empty script list (in
which case no entry identifier exists either) resolves immediately with
`undefined`, leaving the cache state — including both fetch logs — untouched:
the fetch capability is not invoked. -/
theorem execScripts_empty_resolves (h : Handle) (env : EvalEnv)
    (fetchF : String → Except Err String) (st : CacheSt) (hempty : h.scripts = []) :
    configExecScripts h env fetchF st = (.resolved .undefinedV, emptySched, st) ∧
    (configExecScripts h env fetchF st).2.2.styleFetchLog = st.styleFetchLog ∧
    (configExecScripts h env fetchF st).2.2.scriptFetchLog = st.scriptFetchLog := by
  have hc : configExecScripts h env fetchF st = (.resolved .undefinedV, emptySched, st) := by
    unfold configExecScripts
    rw [hempty]
    rfl
  exact ⟨hc, by rw [hc], by rw [hc]⟩

theorem execScripts_empty_resolves_witness :
    configExecScripts ⟨"<div></div>", [], ["http://x/a.css"]⟩
        ⟨fun _ => none, none, [], false⟩ (fun _ => .ok "css") emptyCache
      = (.resolved .undefinedV, emptySched, emptyCache) :=
  (execScripts_empty_resolves ⟨"<div></div>", [], ["http://x/a.css"]⟩
    ⟨fun _ => none, none, [], false⟩ (fun _ => .ok "css") emptyCache rfl).1

/-- Claim C6 (counterexample to the claim as stated): the entry export is read
through `proxy[...] || \x7b\x7d`, which replaces any falsy value — not only an
absent property — with the empty record. With the export property present and
holding `false`, the execution resolves with the empty record, not with the
value found at the property. -/
theorem entry_export_falsy_counterexample :
    (execScriptsModel (some "e")
        ⟨fun _ => none, some "exp", [("exp", JsVal.boolean false)], false⟩
        [Script.str "e"] (fun _ => .ok "x") emptyCache).1 = .resolved JsVal.emptyObj ∧
    (execScriptsModel (some "e")
        ⟨fun _ => none, some "exp", [("exp", JsVal.boolean false)], false⟩
        [Script.str "e"] (fun _ => .ok "x") emptyCache).1
      ≠ .resolved (JsVal.boolean false) ∧
    ([("exp", JsVal.boolean false)] : List (String × JsVal)).lookup "exp"
      = some (JsVal.boolean false) := by
  refine ⟨?_, ?_, rfl⟩
  · decide
  · decide

/-- Claim C6 (amended): for every execution with an entry identifier whose
entry script completes without throwing, the resolution value equals the
captured export `exportsValue` — the value found at the export property on
the sandbox when that value is truthy, and the empty record when the property
is absent or holds a falsy value. -/
theorem entry_export_capture (entry : Option String) (env : EvalEnv)
    (scripts : List Script) (fetchF : String → Except Err String) (st0 st1 : CacheSt)
    (texts : List ScriptText) (k : Nat) (sk : Script)
    (hres : getExternalScriptsM fetchF scripts st0 = (.ok texts, st1))
    (htr : entryTruthy entry = true)
    (hk : scripts[k]? = some sk)
    (hek : isEntryScript entry sk = true)
    (hpre : ∀ (j : Nat) (sj : Script), j < k → scripts[j]? = some sj →
      isEntryScript entry sj = false)
    (hkok : env.evalThrows k = none)
    (hnosucc : env.hasSuccess = false) :
    (execScriptsModel entry env scripts fetchF st0).1 = .resolved (exportsValue env) ∧
    (∀ p, env.exportProp = some p → env.proxy.lookup p = none →
      exportsValue env = .emptyObj) ∧
    (∀ p v, env.exportProp = some p → env.proxy.lookup p = some v → truthy v = true →
      exportsValue env = v) ∧
    (∀ p v, env.exportProp = some p → env.proxy.lookup p = some v → truthy v = false →
      exportsValue env = .emptyObj) := by
  obtain ⟨hlen, _⟩ := getScripts_spec fetchF scripts st0 texts st1 hres
  obtain ⟨rest, hrest⟩ := sched_first_entry entry env scripts texts htr hlen k sk hk hek
    hkok 0 emptySched (Nat.zero_le k) (fun j sj _ hjlt hjs => hpre j sj hjlt hjs)
  have hmodel : execScriptsModel entry env scripts fetchF st0 =
      (outcome env.hasSuccess (schedule entry env scripts texts 0 emptySched).1
        (schedule entry env scripts texts 0 emptySched).2,
       (schedule entry env scripts texts 0 emptySched).1, st1) := by
    unfold execScriptsModel
    rw [hres]
  rcases hr : schedule entry env scripts texts 0 emptySched with ⟨sst, errv⟩
  rw [hr] at hmodel hrest
  rw [hmodel]
  refine ⟨?_, ?_, ?_, ?_⟩
  · show outcome env.hasSuccess sst errv = .resolved (exportsValue env)
    unfold outcome
    rw [hnosucc]
    have hcalls : sst.resolveCalls = exportsValue env :: rest := hrest
    simp [hcalls]
  · intro p hp hlp
    simp [exportsValue, jsIndex, hp, hlp, truthy]
  · intro p v hp hlp htv
    simp [exportsValue, jsIndex, hp, hlp, htv]
  · intro p v hp hlp htv
    simp [exportsValue, jsIndex, hp, hlp, htv]

theorem entry_export_capture_witness :
    (execScriptsModel (some "http://x/e.js")
        ⟨fun _ => none, some "exp", [("exp", JsVal.strV "moduleExports")], false⟩
        [Script.str "http://x/e.js"] (fun _ => .ok "code") emptyCache).1
      = .resolved (JsVal.strV "moduleExports") := by
  have happ := entry_export_capture (some "http://x/e.js")
    ⟨fun _ => none, some "exp", [("exp", JsVal.strV "moduleExports")], false⟩
    [Script.str "http://x/e.js"] (fun _ => .ok "code") emptyCache
    ⟨[], [("http://x/e.js", .ok "code")], [], ["http://x/e.js"], []⟩
    [.text "code"] 0 (Script.str "http://x/e.js")
    rfl rfl rfl rfl
    (fun j sj hj hjs => absurd hj (by omega))
    rfl rfl
  exact happ.1

/-- Claim C7: in non-strict-global mode the generated code string is exactly
the wrapper that rebinds the three identifiers `window`, `self` and
`globalThis` — and only those — to the sandbox (`window.proxy`), with the
sourceURL annotation naming the script's location appended, and the
annotation is omitted exactly when the script is inline (its descriptor text
starts with a left angle bracket). -/
theorem nonstrict_wrapper_shape (scriptSrc scriptText : String) (p : Nat)
    (scopedVars : List String) (g : GlobalWin) :
    (getExecutableScript scriptSrc scriptText p false scopedVars g).1 =
      specNonStrictWrapper ["window", "self", "globalThis"] "window.proxy" scriptText
        (if isInlineCode scriptSrc then "" else "//# sourceURL=" ++ scriptSrc ++ "\n") ∧
    ((if isInlineCode scriptSrc then "" else "//# sourceURL=" ++ scriptSrc ++ "\n") = ""
      ↔ isInlineCode scriptSrc = true) := by
  constructor
  · rfl
  · by_cases hin : isInlineCode scriptSrc = true
    · rw [if_pos hin]
      simp [hin]
    · rw [if_neg hin]
      constructor
      · intro hc
        have hlen := congrArg String.length hc
        rw [String.length_append, String.length_append] at hlen
        have h1 : ("\n" : String).length = 1 := rfl
        have h0 : ("" : String).length = 0 := rfl
        rw [h1, h0] at hlen
        omega
      · intro hc
        exact absurd hc hin

/-- Claim C8: in config-driven mode the entry identifier passed to script
execution is `scripts[scripts.length - 1]`, the final element of the scripts
list; in particular for `["http://x/a.js", "http://x/b.js"]` it is
`"http://x/b.js"`. -/
theorem config_entry_is_last (l : List String) (hl : l ≠ []) (h : Handle) (env : EvalEnv)
    (fetchF : String → Except Err String) (st : CacheSt) (hs : h.scripts = l) :
    configEntryArg l = l.getLast? ∧
    configExecScripts h env fetchF st
      = execScriptsModel (configEntryArg l) env (l.map Script.str) fetchF st ∧
    configEntryArg ["http://x/a.js", "http://x/b.js"] = some "http://x/b.js" := by
  refine ⟨?_, ?_, rfl⟩
  · unfold configEntryArg
    exact (List.getLast?_eq_getElem? l).symm
  · unfold configExecScripts
    rw [hs]
    have hlen0 : (l.length == 0) = false :=
      beq_eq_false_iff_ne.mpr (fun hc => hl (List.length_eq_zero.mp hc))
    rw [if_neg (by rw [hlen0]; exact Bool.false_ne_true)]

theorem config_entry_is_last_witness :
    configEntryArg ["http://x/a.js", "http://x/b.js"]
      = (["http://x/a.js", "http://x/b.js"] : List String).getLast? ∧
    configEntryArg ["http://x/a.js", "http://x/b.js"] = some "http://x/b.js" :=
  ⟨(config_entry_is_last ["http://x/a.js", "http://x/b.js"] (by simp)
      ⟨"", ["http://x/a.js", "http://x/b.js"], []⟩ ⟨fun _ => none, none, [], false⟩
      (fun _ => .ok "") emptyCache rfl).1,
   (config_entry_is_last ["http://x/a.js", "http://x/b.js"] (by simp)
      ⟨"", ["http://x/a.js", "http://x/b.js"], []⟩ ⟨fun _ => none, none, [], false⟩
      (fun _ => .ok "") emptyCache rfl).2.2⟩

/-- Claim C9: a non-string config in which neither `scripts` nor `styles` is
an array makes the facade throw the configuration `SyntaxError`
synchronously, before any fetch or template work: the returned state is the
input state, untouched. -/
theorem importEntry_config_error (cfg : EntryConfig) (fetchF : String → Except Err String)
    (st : CacheSt) (hs : cfg.scripts = none) (hst : cfg.styles = none) :
    importEntryConfig cfg fetchF st
      = (.error "entry scripts or styles should be array!", st) := by
  unfold importEntryConfig
  rw [hs, hst]
  rfl

theorem importEntry_config_error_witness :
    importEntryConfig ⟨none, none, some "<p></p>"⟩ (fun _ => .ok "") emptyCache
      = (.error "entry scripts or styles should be array!", emptyCache) :=
  importEntry_config_error ⟨none, none, some "<p></p>"⟩ (fun _ => .ok "") emptyCache rfl rfl

/-- Claim C10: every code-generation call (entry or not, strict or
non-strict) assigns the caller's sandbox to the `proxy` property of the real
global window before the script runs; two interleaved invocations with
different sandboxes each overwrite that same global property. -/
theorem window_proxy_global_write (s1 t1 s2 t2 : String) (p1 p2 : Nat) (b1 b2 : Bool)
    (sc1 sc2 : List String) (g : GlobalWin) (hne : p1 ≠ p2) :
    (getExecutableScript s1 t1 p1 b1 sc1 g).2.proxy = some p1 ∧
    (getExecutableScript s2 t2 p2 b2 sc2
        ((getExecutableScript s1 t1 p1 b1 sc1 g).2)).2.proxy = some p2 ∧
    (some p2 : Option Nat) ≠ some p1 := by
  refine ⟨rfl, rfl, ?_⟩
  intro hc
  exact hne (Option.some.inj hc).symm

theorem window_proxy_global_write_witness :
    (getExecutableScript "http://x/a.js" "code" 0 false [] ⟨none⟩).2.proxy = some 0 ∧
    (getExecutableScript "http://x/b.js" "code" 1 true ["history"]
        ((getExecutableScript "http://x/a.js" "code" 0 false [] ⟨none⟩).2)).2.proxy
      = some 1 ∧
    (some 1 : Option Nat) ≠ some 0 :=
  window_proxy_global_write "http://x/a.js" "code" "http://x/b.js" "code" 0 1 false true
    [] ["history"] ⟨none⟩ (by omega)

end ImportHtmlEntry
